import Mathlib

/-! go_unzip_http: central-directory resolution and selective extraction.

A shallow embedding of `main.go`.  Byte slices are lists of bytes whose
capacity equals their length; unsigned 64-bit arithmetic is arithmetic on
`Nat` reduced modulo `2^64`; `int`/`int64` values are `Int`.  A Go call has
one of four outcomes: it returns a value, it returns a non-nil `error`, it
panics at run time, or (for the loops, which carry a fuel argument) it has
not finished when the fuel is used up.
-/

namespace GoUnzipHttp

/-- One octet of a Go `[]byte`. -/
abbrev Byte := Fin 256

/-- The `error` values `main.go` constructs. -/
inductive GoError where
  | cannotFindCentralDirectory
  | httpStatus
  | shortRead
deriving DecidableEq, Repr

/-- What a call does: return, return an error, panic, or run out of fuel. -/
inductive Outcome (α : Type) where
  | ok : α → Outcome α
  | error : GoError → Outcome α
  | panic : Outcome α
  | diverge : Outcome α
deriving DecidableEq, Repr

/-- The constant `headerLen`. -/
def headerLen : Nat := 65536

/-- The struct `CDirentry`; `FileName` is kept as the bytes of the Go string. -/
structure CDirentry where
  Signature : Nat
  VersionMadeBy : Nat
  VersionNeeded : Nat
  GeneralPurposeBitFlag : Nat
  CompressionMethod : Nat
  LastModFileTime : Nat
  LastModFileDate : Nat
  Crc32 : Nat
  CompressedSize : Nat
  UncompressedSize : Nat
  FileNameLength : Nat
  ExtraFieldLength : Nat
  FileCommentLength : Nat
  DiskNumberStart : Nat
  InternalFileAttributes : Nat
  ExternalFileAttributes : Nat
  OffsetLocalHeader : Nat
  FileName : List Byte
deriving DecidableEq, Repr

/-- The zero value of `CDirentry`, as `make([]CDirentry, n)` fills a slice. -/
def CDirentry.zero : CDirentry :=
  ⟨0, 0, 0, 0, 0, 0, 0, 0, 0, 0, 0, 0, 0, 0, 0, 0, 0, []⟩

/-- Addition of two `uint64` values. -/
def add64 (a b : Nat) : Nat := (a + b) % 2 ^ 64

/-- Subtraction of two `uint64` values. -/
def sub64 (a b : Nat) : Nat := (a + (2 ^ 64 - b % 2 ^ 64)) % 2 ^ 64

/-- The conversion `int(x)` / `int64(x)` of a `uint64` value. -/
def toInt64 (x : Nat) : Int :=
  if x % 2 ^ 64 < 2 ^ 63 then ((x % 2 ^ 64 : Nat) : Int) else ((x % 2 ^ 64 : Nat) : Int) - 2 ^ 64

/-- Reduction of an integer to the `int64` range (two's complement). -/
def wrapInt64 (x : Int) : Int := (x + 2 ^ 63) % 2 ^ 64 - 2 ^ 63

/-- Little-endian value of a byte string. -/
def leNat : List Byte → Nat
  | [] => 0
  | b :: rest => b.val + 256 * leNat rest

/-- `binary.Read(reader, binary.LittleEndian, &x)` for an unsigned integer `x`
of `w` bytes on a `bytes.Reader` with `r` left to read: with `w` bytes left
the value is decoded and the reader advances; with fewer the reader is
drained and `x` keeps its old value. -/
def binaryRead (w : Nat) (r : List Byte) (old : Nat) : Nat × List Byte :=
  if w ≤ r.length then (leNat (r.take w), r.drop w) else (old, [])

/-- Whether `sep` is an initial segment of `s`. -/
def startsWith : List Byte → List Byte → Bool
  | _, [] => true
  | [], _ :: _ => false
  | a :: s, b :: sep => a == b && startsWith s sep

/-- One left-to-right pass of `bytes.LastIndex`: `i` is the index of the head
of the list, `acc` the last match seen so far. -/
def lastIndexAux (sep : List Byte) : List Byte → Nat → Int → Int
  | [], _, acc => acc
  | b :: rest, i, acc =>
    lastIndexAux sep rest (i + 1) (if startsWith (b :: rest) sep then (i : Int) else acc)

/-- `bytes.LastIndex(s, sep)`: index of the last instance of `sep` in `s`, or
`-1`; for an empty `sep` it is `len(s)`. -/
def lastIndex (s sep : List Byte) : Int :=
  if sep = [] then (s.length : Int) else lastIndexAux sep s 0 (-1)

/-- The slice expression `data[lo:hi]` with `int` bounds; `none` is the
run-time panic for bounds out of range. -/
def goSlice (data : List Byte) (lo hi : Int) : Option (List Byte) :=
  if 0 ≤ lo ∧ lo ≤ hi ∧ hi ≤ (data.length : Int) then
    some ((data.drop lo.toNat).take (hi.toNat - lo.toNat))
  else none

def magicEOCD64 : List Byte := [0x50, 0x4b, 0x06, 0x06]

def magicEOCD : List Byte := [0x50, 0x4b, 0x05, 0x06]

/-- The local variables of `infoIter` that outlive the record decoding. -/
structure EOCD where
  totalNumRecords : Nat
  totalNumRecords64 : Nat
  cdirBytes64 : Nat
  cdirStart64 : Nat
deriving DecidableEq, Repr

/-- The `if i >= 0` branch of `infoIter`: the ZIP64 record read from `data[i:]`. -/
def readEOCD64 (r0 : List Byte) : EOCD :=
  let magic := binaryRead 4 r0 0
  let eocdSz := binaryRead 8 magic.2 0
  let createVer := binaryRead 2 eocdSz.2 0
  let minVer := binaryRead 2 createVer.2 0
  let diskNum32 := binaryRead 4 minVer.2 0
  let diskStart32 := binaryRead 4 diskNum32.2 0
  let diskNumRecords64 := binaryRead 8 diskStart32.2 0
  let totalNumRecords64 := binaryRead 8 diskNumRecords64.2 0
  let cdirBytes64 := binaryRead 8 totalNumRecords64.2 0
  let cdirStart64 := binaryRead 8 cdirBytes64.2 0
  { totalNumRecords := 0
    totalNumRecords64 := totalNumRecords64.1
    cdirBytes64 := cdirBytes64.1
    cdirStart64 := cdirStart64.1 }

/-- The `else` branch of `infoIter`: the standard record read from `data[i:]`. -/
def readEOCD32 (r0 : List Byte) : EOCD :=
  let magic := binaryRead 4 r0 0
  let diskNum := binaryRead 2 magic.2 0
  let diskStart := binaryRead 2 diskNum.2 0
  let diskNumRecords := binaryRead 2 diskStart.2 0
  let totalNumRecords := binaryRead 2 diskNumRecords.2 0
  let cdirBytes := binaryRead 4 totalNumRecords.2 0
  let cdirStart := binaryRead 4 cdirBytes.2 0
  let _commentLen := binaryRead 2 cdirStart.2 0
  { totalNumRecords := totalNumRecords.1
    totalNumRecords64 := 0
    cdirBytes64 := cdirBytes.1
    cdirStart64 := cdirStart.1 }

/-- Lines 135-165 of `infoIter`: locate and decode the end-of-central-directory
record.  `data[i:]` with `i = -1` panics. -/
def readEOCD (data : List Byte) : Outcome EOCD :=
  let i := lastIndex data magicEOCD64
  if 0 ≤ i then
    .ok (readEOCD64 (data.drop i.toNat))
  else
    let j := lastIndex data magicEOCD
    if j < 0 then .panic else .ok (readEOCD32 (data.drop j.toNat))

/-- The statement `x = vals[0]; vals = vals[1:]` guarded by
`field == 0xffffffff`; indexing an empty `vals` panics. -/
def takeVal (field : Nat) (vals : List Nat) : Outcome (Nat × List Nat) :=
  if field = 0xffffffff then
    match vals with
    | [] => .panic
    | v :: rest => .ok (v, rest)
  else .ok (field, vals)

/-- `binary.Read(extraReader, binary.LittleEndian, &vals)` for a `[]uint64` of
length `n`: all `8 * n` bytes or nothing. -/
def readVals (n : Nat) (r : List Byte) : List Nat :=
  if 8 * n ≤ r.length then (List.range n).map (fun k => leNat ((r.drop (8 * k)).take 8))
  else List.replicate n 0

/-- The `if fieldid == 0x0001` block of `unpackCDirentry`. -/
def applyZip64 (fieldsz : Nat) (r : List Byte) (entry : CDirentry) : Outcome CDirentry :=
  let n := if fieldsz = 8 then 1 else if fieldsz = 16 then 2 else 3
  let vals := readVals n r
  match takeVal entry.UncompressedSize vals with
  | .ok (u, vals1) =>
    match takeVal entry.CompressedSize vals1 with
    | .ok (c, vals2) =>
      match takeVal entry.OffsetLocalHeader vals2 with
      | .ok (o, _) =>
        .ok { entry with UncompressedSize := u, CompressedSize := c, OffsetLocalHeader := o }
      | _ => .panic
    | _ => .panic
  | _ => .panic

/-- One pass through the body of the loop `for i < len(extra)`: the reader is
created afresh on `extra`, so the sub-record header read is the one at the
start of `extra`.  Returns the entry and the amount added to `i`. -/
def extraStep (extra : List Byte) (entry : CDirentry) : Outcome (CDirentry × Nat) :=
  let fieldid := binaryRead 2 extra 0
  let fieldsz := binaryRead 2 fieldid.2 0
  if fieldid.1 = 1 then
    match applyZip64 fieldsz.1 fieldsz.2 entry with
    | .ok e => .ok (e, 4 + fieldsz.1)
    | _ => .panic
  else .ok (entry, 4 + fieldsz.1)

/-- The loop `for i < len(extra)` of `unpackCDirentry`. -/
def extraLoop : Nat → List Byte → CDirentry → Nat → Outcome CDirentry
  | 0, extra, entry, i => if i < extra.length then .diverge else .ok entry
  | fuel + 1, extra, entry, i =>
    if i < extra.length then
      match extraStep extra entry with
      | .ok (e, d) => extraLoop fuel extra e (i + d)
      | _ => .panic
    else .ok entry

/-- The 46-byte fixed header read by `unpackCDirentry` from `data[offset:]`;
`buffer32` is shared by the three 32-bit reads that go to 64-bit fields. -/
def readFixed (r0 : List Byte) : CDirentry :=
  let signature := binaryRead 4 r0 0
  let versionMadeBy := binaryRead 2 signature.2 0
  let versionNeeded := binaryRead 2 versionMadeBy.2 0
  let flags := binaryRead 2 versionNeeded.2 0
  let method := binaryRead 2 flags.2 0
  let modTime := binaryRead 2 method.2 0
  let modDate := binaryRead 2 modTime.2 0
  let crc := binaryRead 4 modDate.2 0
  let compressed := binaryRead 4 crc.2 0
  let uncompressed := binaryRead 4 compressed.2 compressed.1
  let nameLen := binaryRead 2 uncompressed.2 0
  let extraLen := binaryRead 2 nameLen.2 0
  let commentLen := binaryRead 2 extraLen.2 0
  let diskStart := binaryRead 2 commentLen.2 0
  let internal := binaryRead 2 diskStart.2 0
  let external := binaryRead 4 internal.2 0
  let offsetLocal := binaryRead 4 external.2 uncompressed.1
  { Signature := signature.1
    VersionMadeBy := versionMadeBy.1
    VersionNeeded := versionNeeded.1
    GeneralPurposeBitFlag := flags.1
    CompressionMethod := method.1
    LastModFileTime := modTime.1
    LastModFileDate := modDate.1
    Crc32 := crc.1
    CompressedSize := compressed.1
    UncompressedSize := uncompressed.1
    FileNameLength := nameLen.1
    ExtraFieldLength := extraLen.1
    FileCommentLength := commentLen.1
    DiskNumberStart := diskStart.1
    InternalFileAttributes := internal.1
    ExternalFileAttributes := external.1
    OffsetLocalHeader := offsetLocal.1
    FileName := [] }

/-- The function `unpackCDirentry`: the new cursor and the decoded entry. -/
def unpackCDirentry (data : List Byte) (offset : Nat) : Outcome (Nat × CDirentry) :=
  if data.length < offset then .panic
  else
    let fixed := readFixed (data.drop offset)
    let afterFixed := add64 offset 46
    let afterName := add64 afterFixed fixed.FileNameLength
    match goSlice data (toInt64 afterFixed) (toInt64 afterName) with
    | none => .panic
    | some name =>
      let afterExtra := add64 afterName fixed.ExtraFieldLength
      match goSlice data (toInt64 afterName) (toInt64 afterExtra) with
      | none => .panic
      | some extra =>
        let currentOffset := add64 afterExtra fixed.FileCommentLength
        match extraLoop extra.length extra { fixed with FileName := name } 0 with
        | .ok entry => .ok (currentOffset, entry)
        | .diverge => .diverge
        | _ => .panic

/-- The loop `for i := 0; filehdrIndex < cdirEnd; i++` of `infoIter`; the
result carries the final value of `i`, the number of entries decoded. -/
def decodeLoop : Nat → List Byte → Nat → Nat → List CDirentry → Nat →
    Outcome (List CDirentry × Nat)
  | 0, _, filehdrIndex, cdirEnd, entries, i =>
    if filehdrIndex < cdirEnd then .diverge else .ok (entries, i)
  | fuel + 1, data, filehdrIndex, cdirEnd, entries, i =>
    if filehdrIndex < cdirEnd then
      match unpackCDirentry data filehdrIndex with
      | .ok (next, entry) =>
        if i < entries.length then decodeLoop fuel data next cdirEnd (entries.set i entry) (i + 1)
        else .panic
      | .diverge => .diverge
      | _ => .panic
    else .ok (entries, i)

/-- Lines 167-176 of `infoIter`: the index of the central directory in `data`. -/
def fileHdrIndex (zipSize cdirStart64 : Nat) : Nat :=
  if zipSize ≤ headerLen then cdirStart64 else sub64 headerLen (sub64 zipSize cdirStart64)

/-- Lines 167-192 of `infoIter`, from the decoded record on. -/
def decodeDirectory (data : List Byte) (zipSize : Nat) (r : EOCD) :
    Outcome (List CDirentry × Nat) :=
  if zipSize ≤ r.cdirStart64 then .error .cannotFindCentralDirectory
  else
    let filehdrIndex := fileHdrIndex zipSize r.cdirStart64
    let cdirEnd := add64 filehdrIndex r.cdirBytes64
    decodeLoop (r.cdirBytes64 / 46 + 1) data filehdrIndex cdirEnd
      (List.replicate r.totalNumRecords CDirentry.zero) 0

/-- The function `infoIter` together with the number of entries its loop
decoded. -/
def infoIterTrace (data : List Byte) (zipSize : Nat) : Outcome (List CDirentry × Nat) :=
  match readEOCD data with
  | .ok r => decodeDirectory data zipSize r
  | .error e => .error e
  | .panic => .panic
  | .diverge => .diverge

/-- The function `infoIter`. -/
def infoIter (data : List Byte) (zipSize : Nat) : Outcome (List CDirentry) :=
  match infoIterTrace data zipSize with
  | .ok (entries, _) => .ok entries
  | .error e => .error e
  | .panic => .panic
  | .diverge => .diverge

/-- The first and last byte named by the `Range` header that
`getRange(url, start, n)` sends: `bytes=start-(start+n-1)`. -/
def rangeHeader (start n : Int) : Int × Int := (start, wrapInt64 (start + n - 1))

/-- The function `getRange`; `fetch first last` is the body of the response
when its status is 206 and `none` for any other status. -/
def getRange (fetch : Int → Int → Option (List Byte)) (start n : Int) : Outcome (List Byte) :=
  match fetch (rangeHeader start n).1 (rangeHeader start n).2 with
  | some body => .ok body
  | none => .error .httpStatus

/-- Lines 364-369 of `main`: the variable `nextPos` for the entry at index `i`. -/
def nextPos (entries : List CDirentry) (fileLen i : Nat) : Nat :=
  if i + 1 < entries.length then (entries.getD (i + 1) CDirentry.zero).OffsetLocalHeader
  else fileLen

/-- The byte range `main` asks `getRange` for when it extracts `entries[i]`. -/
def requestedRange (entries : List CDirentry) (fileLen i : Nat) : Int × Int :=
  rangeHeader (toInt64 (entries.getD i CDirentry.zero).OffsetLocalHeader)
    (toInt64 (nextPos entries fileLen i))

/-- Largest allocation the Go runtime accepts on a 64-bit platform; a larger
`make([]byte, n)` panics. -/
def maxAlloc : Nat := 2 ^ 48

/-- Lines 396-409 of `main`: the bytes written for compressed `data`;
`inflate` is what `io.ReadAll(flate.NewReader(...))` returns. -/
def decompress (inflate : List Byte → List Byte) (method : Nat) (data : List Byte) : List Byte :=
  if method = 8 then inflate data else data

/-- Lines 382-388 of `main`: skip the local header in the response body and
read `CompressedSize` bytes. -/
def readPayload (body : List Byte) (entry : CDirentry) : Outcome (List Byte) :=
  let extraLen := binaryRead 2 (body.drop 28) 0
  let rest := extraLen.2.drop (entry.FileNameLength + extraLen.1)
  if maxAlloc < entry.CompressedSize then .panic
  else if rest.length < entry.CompressedSize then .error .shortRead
  else .ok (rest.take entry.CompressedSize)

/-- Lines 362-416 of `main`, the body of `if entry.FileName == toExtract`: the
file name and the bytes written. -/
def extractEntry (fetch : Int → Int → Option (List Byte)) (inflate : List Byte → List Byte)
    (entries : List CDirentry) (fileLen i : Nat) (entry : CDirentry) :
    Outcome (List Byte × List Byte) :=
  match getRange fetch (toInt64 entry.OffsetLocalHeader) (toInt64 (nextPos entries fileLen i)) with
  | .ok body =>
    match readPayload body entry with
    | .ok data => .ok (entry.FileName, decompress inflate entry.CompressionMethod data)
    | .error e => .error e
    | .panic => .panic
    | .diverge => .diverge
  | .error e => .error e
  | .panic => .panic
  | .diverge => .diverge

/-- The loop `for i, entry := range entries` of `main` over the entries from
index `i` on: the files written, and how the loop ended (an extraction error
makes `main` return). -/
def mainLoop (fetch : Int → Int → Option (List Byte)) (inflate : List Byte → List Byte)
    (entries : List CDirentry) (fileLen : Nat) (toExtract : List Byte) :
    List CDirentry → Nat → List (List Byte × List Byte) × Outcome Unit
  | [], _ => ([], .ok ())
  | entry :: rest, i =>
    if entry.FileName = toExtract then
      match extractEntry fetch inflate entries fileLen i entry with
      | .ok w =>
        ((w :: (mainLoop fetch inflate entries fileLen toExtract rest (i + 1)).1),
          (mainLoop fetch inflate entries fileLen toExtract rest (i + 1)).2)
      | .error e => ([], .error e)
      | .panic => ([], .panic)
      | .diverge => ([], .diverge)
    else mainLoop fetch inflate entries fileLen toExtract rest (i + 1)

/-- Lines 356-420 of `main`, with the tail buffer `data` and the archive
length `fileLen` as inputs; the error of `infoIter` is discarded, leaving a
nil entry list. -/
def mainFrom (fetch : Int → Int → Option (List Byte)) (inflate : List Byte → List Byte)
    (data : List Byte) (fileLen : Nat) (toExtract : List Byte) :
    List (List Byte × List Byte) × Outcome Unit :=
  match infoIter data fileLen with
  | .ok entries => mainLoop fetch inflate entries fileLen toExtract entries 0
  | .error _ => ([], .ok ())
  | .panic => ([], .panic)
  | .diverge => ([], .diverge)

/-- The tail window `fetchHeader` asks for: the last `min(headerLen, length)`
bytes of the archive. -/
def tailWindow (archive : List Byte) : List Byte :=
  archive.drop (archive.length - headerLen)

/-- A fake remote object backed by `content`: an HTTP range request
`bytes=first-last` is answered with status 206 and the bytes from `first` to
`last` inclusive, cut at the end of the content, when `0 ≤ first ≤ last` and
`first` lies inside the content; anything else is not a 206 response. -/
def fakeRemote (content : List Byte) (first last : Int) : Option (List Byte) :=
  if 0 ≤ first ∧ first ≤ last ∧ first < (content.length : Int) then
    some ((content.drop first.toNat).take (last.toNat + 1 - first.toNat))
  else none

/-- A 305-byte archive with three members in this order: `a.txt` stored
(`0123456789`, local header at 0), `b.txt` deflated (`hello hello hello`, 10
compressed bytes, local header at 45), `c.txt` stored (`abcde`, local header
at 90); central directory at 130 (153 bytes), standard record at 283. -/
def scenarioArchive : List Byte :=
  [80, 75, 3, 4, 20, 0, 0, 0, 0, 0, 0, 0, 33, 88, 198, 199, 132, 166, 10, 0, 0, 0, 10, 0, 0, 0,
   5, 0, 0, 0, 97, 46, 116, 120, 116, 48, 49, 50, 51, 52, 53, 54, 55, 56, 57,
   80, 75, 3, 4, 20, 0, 0, 0, 8, 0, 0, 0, 33, 88, 128, 136, 249, 229, 10, 0, 0, 0, 17, 0, 0, 0,
   5, 0, 0, 0, 98, 46, 116, 120, 116, 203, 72, 205, 201, 201, 87, 200, 64, 144, 0,
   80, 75, 3, 4, 20, 0, 0, 0, 0, 0, 0, 0, 33, 88, 101, 216, 135, 133, 5, 0, 0, 0, 5, 0, 0, 0,
   5, 0, 0, 0, 99, 46, 116, 120, 116, 97, 98, 99, 100, 101,
   80, 75, 1, 2, 20, 3, 20, 0, 0, 0, 0, 0, 0, 0, 33, 88, 198, 199, 132, 166, 10, 0, 0, 0,
   10, 0, 0, 0, 5, 0, 0, 0, 0, 0, 0, 0, 0, 0, 0, 0, 128, 1, 0, 0, 0, 0, 97, 46, 116, 120, 116,
   80, 75, 1, 2, 20, 3, 20, 0, 0, 0, 8, 0, 0, 0, 33, 88, 128, 136, 249, 229, 10, 0, 0, 0,
   17, 0, 0, 0, 5, 0, 0, 0, 0, 0, 0, 0, 0, 0, 0, 0, 128, 1, 45, 0, 0, 0, 98, 46, 116, 120, 116,
   80, 75, 1, 2, 20, 3, 20, 0, 0, 0, 0, 0, 0, 0, 33, 88, 101, 216, 135, 133, 5, 0, 0, 0,
   5, 0, 0, 0, 5, 0, 0, 0, 0, 0, 0, 0, 0, 0, 0, 0, 128, 1, 90, 0, 0, 0, 99, 46, 116, 120, 116,
   80, 75, 5, 6, 0, 0, 0, 0, 3, 0, 3, 0, 153, 0, 0, 0, 130, 0, 0, 0, 0, 0]

/-- A ZIP64 archive of 190 bytes with one stored member `z.txt` holding
`zip64!`: local header and data (0-40), central directory (41-91), the ZIP64
record closing the directory (92-147), its locator (148-167) and a standard
record whose fields are all set to the ZIP64 escape value (168-189). -/
def zip64Archive : List Byte :=
  [80, 75, 3, 4, 45, 0, 0, 0, 0, 0, 0, 0, 33, 88, 47, 64, 195, 51, 6, 0, 0, 0, 6, 0, 0, 0,
   5, 0, 0, 0, 122, 46, 116, 120, 116, 122, 105, 112, 54, 52, 33,
   80, 75, 1, 2, 45, 3, 45, 0, 0, 0, 0, 0, 0, 0, 33, 88, 47, 64, 195, 51, 6, 0, 0, 0,
   6, 0, 0, 0, 5, 0, 0, 0, 0, 0, 0, 0, 0, 0, 0, 0, 0, 0, 0, 0, 0, 0, 122, 46, 116, 120, 116,
   80, 75, 6, 6, 44, 0, 0, 0, 0, 0, 0, 0, 45, 3, 45, 0, 0, 0, 0, 0, 0, 0, 0, 0,
   1, 0, 0, 0, 0, 0, 0, 0, 1, 0, 0, 0, 0, 0, 0, 0, 51, 0, 0, 0, 0, 0, 0, 0,
   41, 0, 0, 0, 0, 0, 0, 0,
   80, 75, 6, 7, 0, 0, 0, 0, 92, 0, 0, 0, 0, 0, 0, 0, 1, 0, 0, 0,
   80, 75, 5, 6, 255, 255, 255, 255, 255, 255, 255, 255, 255, 255, 255, 255, 255, 255, 255, 255,
   0, 0]

/-- The little-endian value of the `w` bytes of `data` at index `off`. -/
def fieldAt (data : List Byte) (off w : Nat) : Nat := leNat ((data.drop off).take w)

/-- The value `0xFFFFFFFF` of a 32-bit field whose true value is in the ZIP64
extended-information sub-record. -/
def sentinel32 : Nat := 0xffffffff

/-- 1 for a raw 32-bit value that is the escape value, else 0. -/
def sentinelBit (raw : Nat) : Nat := if raw = sentinel32 then 1 else 0

/-- The `j`-th 8-byte little-endian value of a ZIP64 sub-record payload. -/
def payloadVal (payload : List Byte) (j : Nat) : Nat := leNat ((payload.drop (8 * j)).take 8)

/-- A central-directory entry (73 bytes) for `big.bin` whose compressed and
uncompressed sizes are the escape value and whose extra field is one ZIP64
sub-record with two 8-byte values; the raw local-header offset is 256. -/
def zip64Entry : List Byte :=
  [80, 75, 1, 2, 45, 3, 45, 0, 0, 0, 0, 0, 0, 0, 33, 88, 239, 190, 173, 222,
   255, 255, 255, 255, 255, 255, 255, 255, 7, 0, 20, 0, 0, 0, 0, 0, 0, 0, 0, 0, 0, 0,
   0, 1, 0, 0, 98, 105, 103, 46, 98, 105, 110,
   1, 0, 16, 0, 154, 120, 86, 52, 18, 0, 0, 0, 85, 68, 51, 34, 17, 0, 0, 0]

/-- A central-directory entry (74 bytes) for `big.bin` whose compressed size
is the escape value and whose extra field is a chain of two sub-records: an
extended-timestamp record (id 0x5455, 5 bytes) and then the ZIP64 record
(id 1, 8 bytes) holding the compressed size 0x1122334455. -/
def chainEntry : List Byte :=
  [80, 75, 1, 2, 45, 3, 45, 0, 0, 0, 0, 0, 0, 0, 33, 88, 239, 190, 173, 222,
   255, 255, 255, 255, 77, 0, 0, 0, 7, 0, 21, 0, 0, 0, 0, 0, 0, 0, 0, 0, 0, 0,
   0, 1, 0, 0, 98, 105, 103, 46, 98, 105, 110,
   85, 84, 5, 0, 1, 128, 0, 146, 101, 1, 0, 8, 0, 85, 68, 51, 34, 17, 0, 0, 0]

/-- The 46-byte fixed header at index `offset` of `data`, field by field. -/
def fixedAt (data : List Byte) (offset : Nat) : CDirentry :=
  { Signature := fieldAt data offset 4
    VersionMadeBy := fieldAt data (offset + 4) 2
    VersionNeeded := fieldAt data (offset + 6) 2
    GeneralPurposeBitFlag := fieldAt data (offset + 8) 2
    CompressionMethod := fieldAt data (offset + 10) 2
    LastModFileTime := fieldAt data (offset + 12) 2
    LastModFileDate := fieldAt data (offset + 14) 2
    Crc32 := fieldAt data (offset + 16) 4
    CompressedSize := fieldAt data (offset + 20) 4
    UncompressedSize := fieldAt data (offset + 24) 4
    FileNameLength := fieldAt data (offset + 28) 2
    ExtraFieldLength := fieldAt data (offset + 30) 2
    FileCommentLength := fieldAt data (offset + 32) 2
    DiskNumberStart := fieldAt data (offset + 34) 2
    InternalFileAttributes := fieldAt data (offset + 36) 2
    ExternalFileAttributes := fieldAt data (offset + 38) 4
    OffsetLocalHeader := fieldAt data (offset + 42) 4
    FileName := [] }

/-- The value a call returned, if it returned one. -/
def Outcome.toOption {α : Type} : Outcome α → Option α
  | .ok a => some a
  | _ => none

/-- The three entries of the central directory of `scenarioArchive`. -/
def scenarioEntries : List CDirentry :=
  [⟨33639248, 788, 20, 0, 0, 0, 22561, 2793719750, 10, 10, 5, 0, 0, 0, 0, 25165824, 0,
      [97, 46, 116, 120, 116]⟩,
   ⟨33639248, 788, 20, 0, 8, 0, 22561, 3858335872, 10, 17, 5, 0, 0, 0, 0, 25165824, 45,
      [98, 46, 116, 120, 116]⟩,
   ⟨33639248, 788, 20, 0, 0, 0, 22561, 2240272485, 5, 5, 5, 0, 0, 0, 0, 25165824, 90,
      [99, 46, 116, 120, 116]⟩]

/-- The archive `scenarioArchive` with the two entry counts of its standard
record (bytes 291 and 293) changed from 3 to 5: the record declares five
entries, the directory holds three. -/
def inconsistentArchive : List Byte := (scenarioArchive.set 291 5).set 293 5

/-- The last 65536 bytes of an archive of 100000 bytes as far as `infoIter`
looks at them: 65514 zero bytes and the 22-byte standard record, which
declares 1000 entries in a central directory of 98978 bytes starting at
archive offset 1000, that is 33464 bytes before the window. -/
def farDirectoryTail : List Byte :=
  List.replicate 65514 0 ++
    [80, 75, 5, 6, 0, 0, 0, 0, 232, 3, 232, 3, 162, 130, 1, 0, 232, 3, 0, 0, 0, 0]

/-- The archive `scenarioArchive` with the compression method of `c.txt` in
its central-directory entry (byte 242) changed from 0 to 12. -/
def method12Archive : List Byte := scenarioArchive.set 242 12

/-- A 112-byte archive with one stored member `s.bin` whose four bytes of
content are `50 4B 06 06`; it has no ZIP64 record. -/
def signatureInDataArchive : List Byte :=
  [80, 75, 3, 4, 20, 0, 0, 0, 0, 0, 0, 0, 33, 88, 44, 176, 191, 41, 4, 0, 0, 0, 4, 0, 0, 0,
   5, 0, 0, 0, 115, 46, 98, 105, 110, 80, 75, 6, 6,
   80, 75, 1, 2, 20, 3, 20, 0, 0, 0, 0, 0, 0, 0, 33, 88, 44, 176, 191, 41, 4, 0, 0, 0,
   4, 0, 0, 0, 5, 0, 0, 0, 0, 0, 0, 0, 0, 0, 0, 0, 128, 1, 0, 0, 0, 0, 115, 46, 98, 105, 110,
   80, 75, 5, 6, 0, 0, 0, 0, 1, 0, 1, 0, 51, 0, 0, 0, 39, 0, 0, 0, 0, 0]

/-! ## Archives without ZIP64, member by member -/

/-- Little-endian encoding of `v` on `w` bytes. -/
def encodeLE : Nat → Nat → List Byte
  | 0, _ => []
  | w + 1, v => ⟨v % 256, Nat.mod_lt _ (by norm_num)⟩ :: encodeLE w (v / 256)

/-- One member of an archive: what its local section and its
central-directory entry hold.  `localFixed` is the first 28 bytes of the local
header (everything before the extra-field length), `payload` the compressed
data, `trailer` whatever follows it before the next local header (a data
descriptor, for instance). -/
structure Member where
  localFixed : List Byte
  localExtra : List Byte
  payload : List Byte
  trailer : List Byte
  versionMadeBy : Nat
  versionNeeded : Nat
  flags : Nat
  method : Nat
  modTime : Nat
  modDate : Nat
  crc : Nat
  uncompressedSize : Nat
  diskNumberStart : Nat
  internalAttrs : Nat
  externalAttrs : Nat
  name : List Byte
  centralExtra : List Byte
  comment : List Byte
deriving DecidableEq, Repr

/-- Local file header, file name, local extra field, compressed data and
trailer of a member. -/
def localRecord (m : Member) : List Byte :=
  m.localFixed ++ (encodeLE 2 m.localExtra.length ++
    (m.name ++ (m.localExtra ++ (m.payload ++ m.trailer))))

/-- The central-directory entry of a member whose local header is at `off`. -/
def centralRecord (m : Member) (off : Nat) : List Byte :=
  encodeLE 4 0x02014b50 ++ (encodeLE 2 m.versionMadeBy ++ (encodeLE 2 m.versionNeeded ++
    (encodeLE 2 m.flags ++ (encodeLE 2 m.method ++ (encodeLE 2 m.modTime ++
    (encodeLE 2 m.modDate ++ (encodeLE 4 m.crc ++ (encodeLE 4 m.payload.length ++
    (encodeLE 4 m.uncompressedSize ++ (encodeLE 2 m.name.length ++
    (encodeLE 2 m.centralExtra.length ++ (encodeLE 2 m.comment.length ++
    (encodeLE 2 m.diskNumberStart ++ (encodeLE 2 m.internalAttrs ++
    (encodeLE 4 m.externalAttrs ++ (encodeLE 4 off ++
    (m.name ++ (m.centralExtra ++ m.comment))))))))))))))))))

/-- The entry a ZIP reader finds in the central directory for a member whose
local header is at `off`. -/
def entryOf (m : Member) (off : Nat) : CDirentry :=
  { Signature := 0x02014b50
    VersionMadeBy := m.versionMadeBy
    VersionNeeded := m.versionNeeded
    GeneralPurposeBitFlag := m.flags
    CompressionMethod := m.method
    LastModFileTime := m.modTime
    LastModFileDate := m.modDate
    Crc32 := m.crc
    CompressedSize := m.payload.length
    UncompressedSize := m.uncompressedSize
    FileNameLength := m.name.length
    ExtraFieldLength := m.centralExtra.length
    FileCommentLength := m.comment.length
    DiskNumberStart := m.diskNumberStart
    InternalFileAttributes := m.internalAttrs
    ExternalFileAttributes := m.externalAttrs
    OffsetLocalHeader := off
    FileName := m.name }

/-- The members with the offsets of their local headers, the first at `base`. -/
def layout : List Member → Nat → List (Member × Nat)
  | [], _ => []
  | m :: ms, base => (m, base) :: layout ms (base + (localRecord m).length)

/-- The local sections of the members, one after the other. -/
def localSection : List Member → List Byte
  | [] => []
  | m :: ms => localRecord m ++ localSection ms

/-- The central directory for members at given offsets. -/
def centralSection : List (Member × Nat) → List Byte
  | [] => []
  | p :: ps => centralRecord p.1 p.2 ++ centralSection ps

/-- The standard end-of-central-directory record with its comment. -/
def eocdRecord (count cdirBytes cdirStart : Nat) (comment : List Byte) : List Byte :=
  encodeLE 4 0x06054b50 ++ (encodeLE 2 0 ++ (encodeLE 2 0 ++ (encodeLE 2 count ++
    (encodeLE 2 count ++ (encodeLE 4 cdirBytes ++ (encodeLE 4 cdirStart ++
    (encodeLE 2 comment.length ++ comment)))))))

/-- A single-disk archive without ZIP64 records: local sections, central
directory, end-of-central-directory record and archive comment. -/
def buildArchive (ms : List Member) (comment : List Byte) : List Byte :=
  localSection ms ++ (centralSection (layout ms 0) ++
    eocdRecord ms.length (centralSection (layout ms 0)).length (localSection ms).length comment)

/-- The entry list a ZIP reader gets from the central directory of
`buildArchive ms comment`. -/
def entriesOf (ms : List Member) : List CDirentry :=
  (layout ms 0).map (fun p => entryOf p.1 p.2)

/-- The field values of a member fit their fields, and no 32-bit field holds
the ZIP64 escape value. -/
abbrev Member.WellFormed (m : Member) : Prop :=
  m.localFixed.length = 28 ∧ m.localExtra.length < 65536 ∧
  m.versionMadeBy < 65536 ∧ m.versionNeeded < 65536 ∧ m.flags < 65536 ∧
  m.method < 65536 ∧ m.modTime < 65536 ∧ m.modDate < 65536 ∧ m.crc < 4294967296 ∧
  m.payload.length < 4294967295 ∧ m.uncompressedSize < 4294967295 ∧
  m.diskNumberStart < 65536 ∧ m.internalAttrs < 65536 ∧ m.externalAttrs < 4294967296 ∧
  m.name.length < 65536 ∧ m.centralExtra.length < 65536 ∧ m.comment.length < 65536

/-- The three members of `scenarioArchive`. -/
def scenarioMembers : List Member :=
  [{ localFixed := [80, 75, 3, 4, 20, 0, 0, 0, 0, 0, 0, 0, 33, 88, 198, 199, 132, 166,
                    10, 0, 0, 0, 10, 0, 0, 0, 5, 0]
     localExtra := [], payload := [48, 49, 50, 51, 52, 53, 54, 55, 56, 57], trailer := []
     versionMadeBy := 788, versionNeeded := 20, flags := 0, method := 0, modTime := 0
     modDate := 22561, crc := 2793719750, uncompressedSize := 10, diskNumberStart := 0
     internalAttrs := 0, externalAttrs := 25165824, name := [97, 46, 116, 120, 116]
     centralExtra := [], comment := [] },
   { localFixed := [80, 75, 3, 4, 20, 0, 0, 0, 8, 0, 0, 0, 33, 88, 128, 136, 249, 229,
                    10, 0, 0, 0, 17, 0, 0, 0, 5, 0]
     localExtra := [], payload := [203, 72, 205, 201, 201, 87, 200, 64, 144, 0], trailer := []
     versionMadeBy := 788, versionNeeded := 20, flags := 0, method := 8, modTime := 0
     modDate := 22561, crc := 3858335872, uncompressedSize := 17, diskNumberStart := 0
     internalAttrs := 0, externalAttrs := 25165824, name := [98, 46, 116, 120, 116]
     centralExtra := [], comment := [] },
   { localFixed := [80, 75, 3, 4, 20, 0, 0, 0, 0, 0, 0, 0, 33, 88, 101, 216, 135, 133,
                    5, 0, 0, 0, 5, 0, 0, 0, 5, 0]
     localExtra := [], payload := [97, 98, 99, 100, 101], trailer := []
     versionMadeBy := 788, versionNeeded := 20, flags := 0, method := 0, modTime := 0
     modDate := 22561, crc := 2240272485, uncompressedSize := 5, diskNumberStart := 0
     internalAttrs := 0, externalAttrs := 25165824, name := [99, 46, 116, 120, 116]
     centralExtra := [], comment := [] }]


/-- Index of the end-of-central-directory record of `buildArchive ms comment`
inside its tail window. -/
def eocdIndexInTail (ms : List Member) (comment : List Byte) : Nat :=
  (localSection ms).length + (centralSection (layout ms 0)).length
    - ((buildArchive ms comment).length - headerLen)

/-- The member of `signatureInDataArchive`. -/
def signatureMember : Member :=
  { localFixed := [80, 75, 3, 4, 20, 0, 0, 0, 0, 0, 0, 0, 33, 88, 44, 176, 191, 41,
                   4, 0, 0, 0, 4, 0, 0, 0, 5, 0]
    localExtra := [], payload := [80, 75, 6, 6], trailer := []
    versionMadeBy := 788, versionNeeded := 20, flags := 0, method := 0, modTime := 0
    modDate := 22561, crc := 700428332, uncompressedSize := 4, diskNumberStart := 0
    internalAttrs := 0, externalAttrs := 25165824, name := [115, 46, 98, 105, 110]
    centralExtra := [], comment := [] }

/-- What the extraction path is to write for `toExtract`: for each member of
that name, in central-directory order, the name and the reference
decompression of its data (`inflate` for method 8, the stored bytes
otherwise). -/
def expectedOutput (inflate : List Byte → List Byte) (ms : List Member)
    (toExtract : List Byte) : List (List Byte × List Byte) :=
  (ms.filter (fun m => m.name = toExtract)).map
    (fun m => (m.name, decompress inflate m.method m.payload))

/-! ## Byte-level lemmas -/

theorem startsWith_iff_take (s sep : List Byte) :
    startsWith s sep = true ↔ s.take sep.length = sep := by
  induction sep generalizing s with
  | nil => simp [startsWith]
  | cons b sep ih =>
    cases s with
    | nil => simp [startsWith]
    | cons a s =>
      simp only [startsWith, Bool.and_eq_true, beq_iff_eq, List.length_cons, List.take_succ_cons,
        List.cons.injEq, ih]

theorem lastIndexAux_none (sep l : List Byte) (i : Nat) (acc : Int)
    (h : ∀ j, startsWith (l.drop j) sep = false) : lastIndexAux sep l i acc = acc := by
  induction l generalizing i acc with
  | nil => rfl
  | cons b rest ih =>
    have h0 : startsWith (b :: rest) sep = false := by simpa using h 0
    have hrest : ∀ j, startsWith (rest.drop j) sep = false := fun j => by simpa using h (j + 1)
    simp only [lastIndexAux, h0, Bool.false_eq_true, if_false]
    exact ih (i + 1) acc hrest

theorem lastIndexAux_found (sep l : List Byte) (i k : Nat) (acc : Int)
    (hk : startsWith (l.drop k) sep = true) (hlt : k < l.length)
    (hlast : ∀ j, k < j → startsWith (l.drop j) sep = false) :
    lastIndexAux sep l i acc = ((i + k : Nat) : Int) := by
  induction l generalizing i k acc with
  | nil => simp at hlt
  | cons b rest ih =>
    cases k with
    | zero =>
      have h0 : startsWith (b :: rest) sep = true := by simpa using hk
      have hrest : ∀ j, startsWith (rest.drop j) sep = false := fun j => by
        simpa using hlast (j + 1) (Nat.succ_pos j)
      simp only [lastIndexAux, h0, if_true]
      rw [lastIndexAux_none sep rest (i + 1) _ hrest]
      simp
    | succ k =>
      have hk1 : startsWith (rest.drop k) sep = true := by simpa using hk
      have hlt1 : k < rest.length := by simpa using hlt
      have hlast1 : ∀ j, k < j → startsWith (rest.drop j) sep = false := fun j hj => by
        simpa using hlast (j + 1) (Nat.succ_lt_succ hj)
      simp only [lastIndexAux]
      rw [ih (i + 1) k _ hk1 hlt1 hlast1]
      congr 1
      omega

theorem startsWith_false_of_take_ne (s sep : List Byte) (h : s.take sep.length ≠ sep) :
    startsWith s sep = false := by
  cases hs : startsWith s sep with
  | false => rfl
  | true => exact absurd ((startsWith_iff_take s sep).1 hs) h

/-- Without an occurrence of a non-empty `sep`, `bytes.LastIndex` is `-1`. -/
theorem lastIndex_absent (s sep : List Byte) (hsep : sep ≠ [])
    (h : ∀ j, (s.drop j).take sep.length ≠ sep) : lastIndex s sep = -1 := by
  unfold lastIndex
  rw [if_neg hsep]
  exact lastIndexAux_none sep s 0 (-1) (fun j => startsWith_false_of_take_ne _ _ (h j))

/-- The value of `bytes.LastIndex` is the index of the rightmost occurrence. -/
theorem lastIndex_rightmost (s sep : List Byte) (k : Nat) (hsep : sep ≠ [])
    (hk : (s.drop k).take sep.length = sep)
    (hlast : ∀ j, k < j → (s.drop j).take sep.length ≠ sep) : lastIndex s sep = (k : Int) := by
  unfold lastIndex
  rw [if_neg hsep]
  have hlt : k < s.length := by
    by_contra hge
    rw [List.drop_of_length_le (by omega)] at hk
    simp at hk
    exact hsep hk
  have := lastIndexAux_found sep s 0 k (-1) ((startsWith_iff_take _ _).2 hk) hlt
    (fun j hj => startsWith_false_of_take_ne _ _ (hlast j hj))
  simpa using this

theorem binaryRead_drop (data : List Byte) (off w old : Nat) (h : off + w ≤ data.length) :
    binaryRead w (data.drop off) old
      = (leNat ((data.drop off).take w), data.drop (off + w)) := by
  unfold binaryRead
  rw [if_pos (by rw [List.length_drop]; omega), List.drop_drop]


theorem take_drop_ne_of_length_le (s sep : List Byte) (j : Nat) (hsep : sep ≠ [])
    (hj : s.length ≤ j) : (s.drop j).take sep.length ≠ sep := by
  rw [List.drop_of_length_le hj]
  intro h
  simp at h
  exact hsep h

theorem lastIndex_absent_of_bounded (s sep : List Byte) (hsep : sep ≠ [])
    (h : ∀ j, j < s.length → (s.drop j).take sep.length ≠ sep) : lastIndex s sep = -1 := by
  apply lastIndex_absent s sep hsep
  intro j
  rcases Nat.lt_or_ge j s.length with hj | hj
  · exact h j hj
  · exact take_drop_ne_of_length_le s sep j hsep hj

theorem lastIndex_rightmost_of_bounded (s sep : List Byte) (k : Nat) (hsep : sep ≠ [])
    (hk : (s.drop k).take sep.length = sep)
    (hlast : ∀ j, j < s.length → k < j → (s.drop j).take sep.length ≠ sep) :
    lastIndex s sep = (k : Int) := by
  apply lastIndex_rightmost s sep k hsep hk
  intro j hkj
  rcases Nat.lt_or_ge j s.length with hj | hj
  · exact hlast j hj hkj
  · exact take_drop_ne_of_length_le s sep j hsep hj

theorem readEOCD_without_signature (data : List Byte)
    (h64 : ∀ j, j < data.length → (data.drop j).take 4 ≠ magicEOCD64)
    (h32 : ∀ j, j < data.length → (data.drop j).take 4 ≠ magicEOCD) :
    readEOCD data = .panic := by
  have e64 : lastIndex data magicEOCD64 = -1 :=
    lastIndex_absent_of_bounded data magicEOCD64 (by decide) h64
  have e32 : lastIndex data magicEOCD = -1 :=
    lastIndex_absent_of_bounded data magicEOCD (by decide) h32
  simp [readEOCD, e64, e32]

theorem readEOCD_zip64 (data : List Byte) (i : Nat)
    (hocc : (data.drop i).take 4 = magicEOCD64)
    (hlast : ∀ j, j < data.length → i < j → (data.drop j).take 4 ≠ magicEOCD64)
    (hlen : i + 56 ≤ data.length) :
    readEOCD data = .ok
      { totalNumRecords := 0
        totalNumRecords64 := leNat ((data.drop (i + 32)).take 8)
        cdirBytes64 := leNat ((data.drop (i + 40)).take 8)
        cdirStart64 := leNat ((data.drop (i + 48)).take 8) } := by
  have e64 : lastIndex data magicEOCD64 = (i : Int) :=
    lastIndex_rightmost_of_bounded data magicEOCD64 i (by decide) hocc hlast
  unfold readEOCD
  simp only [e64, Int.toNat_ofNat, Int.natCast_nonneg, if_true, readEOCD64]
  rw [binaryRead_drop data i 4 0 (by omega)]
  simp only []
  rw [binaryRead_drop data (i + 4) 8 0 (by omega)]
  simp only []
  rw [binaryRead_drop data (i + 4 + 8) 2 0 (by omega)]
  simp only []
  rw [binaryRead_drop data (i + 4 + 8 + 2) 2 0 (by omega)]
  simp only []
  rw [binaryRead_drop data (i + 4 + 8 + 2 + 2) 4 0 (by omega)]
  simp only []
  rw [binaryRead_drop data (i + 4 + 8 + 2 + 2 + 4) 4 0 (by omega)]
  simp only []
  rw [binaryRead_drop data (i + 4 + 8 + 2 + 2 + 4 + 4) 8 0 (by omega)]
  simp only []
  rw [binaryRead_drop data (i + 4 + 8 + 2 + 2 + 4 + 4 + 8) 8 0 (by omega)]
  simp only []
  rw [binaryRead_drop data (i + 4 + 8 + 2 + 2 + 4 + 4 + 8 + 8) 8 0 (by omega)]
  simp only []
  rw [binaryRead_drop data (i + 4 + 8 + 2 + 2 + 4 + 4 + 8 + 8 + 8) 8 0 (by omega)]

theorem add64_small (a b : Nat) (h : a + b < 2 ^ 64) : add64 a b = a + b := by
  unfold add64
  exact Nat.mod_eq_of_lt h

theorem toInt64_small (x : Nat) (h : x < 2 ^ 63) : toInt64 x = (x : Int) := by
  unfold toInt64
  have h1 : x % 2 ^ 64 = x := Nat.mod_eq_of_lt (by omega)
  rw [h1, if_pos h]

theorem goSlice_nat (data : List Byte) (a b : Nat) (hab : a ≤ b) (hb : b ≤ data.length) :
    goSlice data (a : Int) (b : Int) = some ((data.drop a).take (b - a)) := by
  unfold goSlice
  rw [if_pos ⟨by omega, by omega, by omega⟩]
  simp

theorem leNat_lt (l : List Byte) : leNat l < 256 ^ l.length := by
  induction l with
  | nil => simp [leNat]
  | cons b rest ih =>
    have hb := b.isLt
    simp only [leNat, List.length_cons, pow_succ]
    nlinarith

theorem readFixed_drop (data : List Byte) (offset : Nat) (h : offset + 46 ≤ data.length) :
    readFixed (data.drop offset) = fixedAt data offset := by
  unfold readFixed fixedAt fieldAt
  rw [binaryRead_drop data offset 4 0 (by omega)]
  simp only []
  rw [binaryRead_drop data (offset + 4) 2 0 (by omega)]
  simp only []
  rw [binaryRead_drop data (offset + 4 + 2) 2 0 (by omega)]
  simp only []
  rw [binaryRead_drop data (offset + 4 + 2 + 2) 2 0 (by omega)]
  simp only []
  rw [binaryRead_drop data (offset + 4 + 2 + 2 + 2) 2 0 (by omega)]
  simp only []
  rw [binaryRead_drop data (offset + 4 + 2 + 2 + 2 + 2) 2 0 (by omega)]
  simp only []
  rw [binaryRead_drop data (offset + 4 + 2 + 2 + 2 + 2 + 2) 2 0 (by omega)]
  simp only []
  rw [binaryRead_drop data (offset + 4 + 2 + 2 + 2 + 2 + 2 + 2) 4 0 (by omega)]
  simp only []
  rw [binaryRead_drop data (offset + 4 + 2 + 2 + 2 + 2 + 2 + 2 + 4) 4 0 (by omega)]
  simp only []
  rw [binaryRead_drop data (offset + 4 + 2 + 2 + 2 + 2 + 2 + 2 + 4 + 4) 4 _ (by omega)]
  simp only []
  rw [binaryRead_drop data (offset + 4 + 2 + 2 + 2 + 2 + 2 + 2 + 4 + 4 + 4) 2 0 (by omega)]
  simp only []
  rw [binaryRead_drop data (offset + 4 + 2 + 2 + 2 + 2 + 2 + 2 + 4 + 4 + 4 + 2) 2 0 (by omega)]
  simp only []
  rw [binaryRead_drop data (offset + 4 + 2 + 2 + 2 + 2 + 2 + 2 + 4 + 4 + 4 + 2 + 2) 2 0
    (by omega)]
  simp only []
  rw [binaryRead_drop data (offset + 4 + 2 + 2 + 2 + 2 + 2 + 2 + 4 + 4 + 4 + 2 + 2 + 2) 2 0
    (by omega)]
  simp only []
  rw [binaryRead_drop data (offset + 4 + 2 + 2 + 2 + 2 + 2 + 2 + 4 + 4 + 4 + 2 + 2 + 2 + 2) 2 0
    (by omega)]
  simp only []
  rw [binaryRead_drop data (offset + 4 + 2 + 2 + 2 + 2 + 2 + 2 + 4 + 4 + 4 + 2 + 2 + 2 + 2 + 2)
    4 0 (by omega)]
  simp only []
  rw [binaryRead_drop data
    (offset + 4 + 2 + 2 + 2 + 2 + 2 + 2 + 4 + 4 + 4 + 2 + 2 + 2 + 2 + 2 + 4) 4 _ (by omega)]

theorem extraLoop_done (fuel : Nat) (extra : List Byte) (entry : CDirentry) (i : Nat)
    (h : extra.length ≤ i) : extraLoop fuel extra entry i = .ok entry := by
  cases fuel with
  | zero => simp [extraLoop, Nat.not_lt.2 h]
  | succ n => simp [extraLoop, Nat.not_lt.2 h]


theorem binaryRead_lt (w : Nat) (r : List Byte) (old : Nat) (h : old < 256 ^ w) :
    (binaryRead w r old).1 < 256 ^ w := by
  unfold binaryRead
  split
  · have h1 := leNat_lt (r.take w)
    have hl : (r.take w).length ≤ w := by simp
    exact lt_of_lt_of_le h1 (Nat.pow_le_pow_right (by norm_num) hl)
  · exact h

theorem binaryRead2_lt (r : List Byte) : (binaryRead 2 r 0).1 < 65536 := by
  have h := binaryRead_lt 2 r 0 (by norm_num)
  norm_num at h
  exact h

theorem readFixed_lengths_lt (r : List Byte) :
    (readFixed r).FileNameLength < 65536 ∧ (readFixed r).ExtraFieldLength < 65536 ∧
      (readFixed r).FileCommentLength < 65536 := by
  unfold readFixed
  simp only []
  exact ⟨binaryRead2_lt _, binaryRead2_lt _, binaryRead2_lt _⟩

/-- Two entries that differ at most in the three fields a ZIP64 sub-record
can override. -/
theorem applyZip64_fields (fieldsz : Nat) (r : List Byte) (entry e : CDirentry)
    (h : applyZip64 fieldsz r entry = .ok e) :
    e = { entry with UncompressedSize := e.UncompressedSize,
                     CompressedSize := e.CompressedSize,
                     OffsetLocalHeader := e.OffsetLocalHeader } := by
  unfold applyZip64 at h
  simp only [] at h
  split at h
  · split at h
    · split at h
      · cases h; rfl
      · cases h
    · cases h
  · cases h

theorem extraStep_fields (extra : List Byte) (entry e : CDirentry) (d : Nat)
    (h : extraStep extra entry = .ok (e, d)) :
    e = { entry with UncompressedSize := e.UncompressedSize,
                     CompressedSize := e.CompressedSize,
                     OffsetLocalHeader := e.OffsetLocalHeader } ∧ 4 ≤ d := by
  unfold extraStep at h
  simp only [] at h
  split at h
  · split at h
    · rename_i e1 he1
      cases h
      exact ⟨applyZip64_fields _ _ _ _ he1, by omega⟩
    · cases h
  · cases h
    exact ⟨rfl, by omega⟩

theorem extraLoop_fields (fuel : Nat) (extra : List Byte) (entry e : CDirentry) (i : Nat)
    (h : extraLoop fuel extra entry i = .ok e) :
    e = { entry with UncompressedSize := e.UncompressedSize,
                     CompressedSize := e.CompressedSize,
                     OffsetLocalHeader := e.OffsetLocalHeader } := by
  induction fuel generalizing entry i with
  | zero =>
    unfold extraLoop at h
    split at h
    · cases h
    · cases h; rfl
  | succ n ih =>
    unfold extraLoop at h
    split at h
    · split at h
      · rename_i e1 d he1
        have h1 := (extraStep_fields extra entry e1 d he1).1
        have h2 := ih e1 (i + d) h
        rw [h2, h1]
      · cases h
    · cases h; rfl

theorem extraLoop_terminates (fuel : Nat) (extra : List Byte) (entry : CDirentry) (i : Nat)
    (h : extra.length ≤ i + 4 * fuel) : extraLoop fuel extra entry i ≠ .diverge := by
  induction fuel generalizing entry i with
  | zero =>
    unfold extraLoop
    rw [if_neg (by omega)]
    simp
  | succ n ih =>
    unfold extraLoop
    split
    · split
      · rename_i e1 d he1
        have hd := (extraStep_fields extra entry e1 d he1).2
        exact ih e1 (i + d) (by omega)
      · simp
    · simp


theorem toInt64_nonneg (x : Nat) (hx : x < 2 ^ 64) (h : 0 ≤ toInt64 x) : x < 2 ^ 63 := by
  unfold toInt64 at h
  have h1 : x % 2 ^ 64 = x := Nat.mod_eq_of_lt hx
  rw [h1] at h
  by_contra hge
  rw [if_neg hge] at h
  omega

theorem goSlice_some (data : List Byte) (lo hi : Int) (x : List Byte)
    (h : goSlice data lo hi = some x) :
    0 ≤ lo ∧ lo ≤ hi ∧ hi ≤ (data.length : Int) ∧
      x = (data.drop lo.toNat).take (hi.toNat - lo.toNat) := by
  unfold goSlice at h
  split at h
  · rename_i hc
    cases h
    exact ⟨hc.1, hc.2.1, hc.2.2, rfl⟩
  · cases h

/-- What a returning call of `unpackCDirentry` has done: name and extra field
lie inside the buffer, the cursor has moved past the fixed header and the
three variable parts, and the entry comes out of the extra-field loop. -/
theorem unpackCDirentry_ok (data : List Byte) (offset cur : Nat) (entry : CDirentry)
    (hlen : data.length < 2 ^ 63)
    (h : unpackCDirentry data offset = .ok (cur, entry)) :
    offset + 46 + (readFixed (data.drop offset)).FileNameLength
        + (readFixed (data.drop offset)).ExtraFieldLength ≤ data.length ∧
    cur = offset + 46 + (readFixed (data.drop offset)).FileNameLength
        + (readFixed (data.drop offset)).ExtraFieldLength
        + (readFixed (data.drop offset)).FileCommentLength ∧
    extraLoop (readFixed (data.drop offset)).ExtraFieldLength
      ((data.drop (offset + 46 + (readFixed (data.drop offset)).FileNameLength)).take
        (readFixed (data.drop offset)).ExtraFieldLength)
      { readFixed (data.drop offset) with
        FileName := (data.drop (offset + 46)).take (readFixed (data.drop offset)).FileNameLength }
      0 = .ok entry := by
  obtain ⟨hn, he, hc⟩ := readFixed_lengths_lt (data.drop offset)
  unfold unpackCDirentry at h
  generalize readFixed (data.drop offset) = fx at *
  split at h
  · cases h
  · rename_i hoff
    simp only [] at h
    have hA : add64 offset 46 = offset + 46 := add64_small _ _ (by omega)
    rw [hA] at h
    have hB : add64 (offset + 46) fx.FileNameLength = offset + 46 + fx.FileNameLength :=
      add64_small _ _ (by omega)
    rw [hB] at h
    split at h
    · cases h
    · rename_i name hname
      obtain ⟨h0, h1, h2, hnm⟩ := goSlice_some _ _ _ _ hname
      have a1 : offset + 46 < 2 ^ 63 := toInt64_nonneg _ (by omega) h0
      rw [toInt64_small _ a1] at h1 hnm
      have a2 : offset + 46 + fx.FileNameLength < 2 ^ 63 :=
        toInt64_nonneg _ (by omega) (by omega)
      rw [toInt64_small _ a2] at h1 h2 hnm
      have hC : add64 (offset + 46 + fx.FileNameLength) fx.ExtraFieldLength
          = offset + 46 + fx.FileNameLength + fx.ExtraFieldLength :=
        add64_small _ _ (by omega)
      rw [hC] at h
      split at h
      · cases h
      · rename_i extra hextra
        obtain ⟨g0, g1, g2, hex⟩ := goSlice_some _ _ _ _ hextra
        rw [toInt64_small _ a2] at g1 hex
        have a3 : offset + 46 + fx.FileNameLength + fx.ExtraFieldLength < 2 ^ 63 :=
          toInt64_nonneg _ (by omega) (by omega)
        rw [toInt64_small _ a3] at g1 g2 hex
        have hD : add64 (offset + 46 + fx.FileNameLength + fx.ExtraFieldLength)
            fx.FileCommentLength
            = offset + 46 + fx.FileNameLength + fx.ExtraFieldLength + fx.FileCommentLength :=
          add64_small _ _ (by omega)
        rw [hD] at h
        have hbound : offset + 46 + fx.FileNameLength + fx.ExtraFieldLength ≤ data.length := by
          omega
        have hnm2 : name = (data.drop (offset + 46)).take fx.FileNameLength := by
          rw [hnm]
          simp only [Int.toNat_ofNat]
          congr 1
          omega
        have hex2 : extra = (data.drop (offset + 46 + fx.FileNameLength)).take
            fx.ExtraFieldLength := by
          rw [hex]
          simp only [Int.toNat_ofNat]
          congr 1
          omega
        have hexlen : extra.length = fx.ExtraFieldLength := by
          rw [hex2, List.length_take, List.length_drop]
          omega
        rw [hexlen] at h
        rw [← hnm2, ← hex2]
        split at h
        · rename_i e1 he1
          cases h
          exact ⟨hbound, rfl, he1⟩
        · cases h
        · cases h

theorem unpackCDirentry_cursor (data : List Byte) (offset cur : Nat) (entry : CDirentry)
    (hlen : data.length < 2 ^ 63)
    (h : unpackCDirentry data offset = .ok (cur, entry)) :
    cur = offset + 46 + entry.FileNameLength + entry.ExtraFieldLength
      + entry.FileCommentLength := by
  obtain ⟨_, hcur, hloop⟩ := unpackCDirentry_ok data offset cur entry hlen h
  have hf := extraLoop_fields _ _ _ _ _ hloop
  have e1 : entry.FileNameLength = (readFixed (data.drop offset)).FileNameLength := by
    rw [hf]
  have e2 : entry.ExtraFieldLength = (readFixed (data.drop offset)).ExtraFieldLength := by
    rw [hf]
  have e3 : entry.FileCommentLength = (readFixed (data.drop offset)).FileCommentLength := by
    rw [hf]
  rw [e1, e2, e3]
  exact hcur

theorem unpackCDirentry_terminates (data : List Byte) (offset : Nat) :
    unpackCDirentry data offset ≠ .diverge := by
  unfold unpackCDirentry
  split
  · simp
  · simp only []
    split
    · simp
    · split
      · simp
      · rename_i extra _
        split
        · simp
        · rename_i hdiv
          exact absurd hdiv (extraLoop_terminates _ _ _ _ (by omega))
        · simp

theorem decodeLoop_terminates (fuel : Nat) (data : List Byte) (idx cdirEnd : Nat)
    (entries : List CDirentry) (i : Nat) (hlen : data.length < 2 ^ 63)
    (h : cdirEnd ≤ idx + 46 * fuel) :
    decodeLoop fuel data idx cdirEnd entries i ≠ .diverge := by
  induction fuel generalizing idx entries i with
  | zero =>
    unfold decodeLoop
    rw [if_neg (by omega)]
    simp
  | succ n ih =>
    unfold decodeLoop
    split
    · split
      · rename_i next entry hnext
        have hc := unpackCDirentry_cursor data idx next entry hlen hnext
        split
        · exact ih next _ _ (by omega)
        · simp
      · rename_i hdiv
        exact absurd hdiv (unpackCDirentry_terminates data idx)
      · simp
    · simp

theorem decodeLoop_result (fuel : Nat) (data : List Byte) (idx cdirEnd : Nat)
    (entries es : List CDirentry) (i n : Nat) (hi : i ≤ entries.length)
    (h : decodeLoop fuel data idx cdirEnd entries i = .ok (es, n)) :
    i ≤ n ∧ n ≤ i + fuel ∧ n ≤ entries.length ∧ es.length = entries.length ∧
      ∀ j, n ≤ j → es[j]? = entries[j]? := by
  induction fuel generalizing idx entries i with
  | zero =>
    unfold decodeLoop at h
    split at h
    · cases h
    · cases h
      exact ⟨le_refl _, by omega, hi, rfl, fun _ _ => rfl⟩
  | succ k ih =>
    unfold decodeLoop at h
    split at h
    · split at h
      · split at h
        · rename_i next entry _ hlt
          obtain ⟨h1, h2, h3, h4, h5⟩ := ih next (entries.set i entry) (i + 1)
            (by rw [List.length_set]; omega) h
          rw [List.length_set] at h3 h4
          refine ⟨by omega, by omega, h3, h4, ?_⟩
          intro j hj
          rw [h5 j hj, List.getElem?_set_ne (by omega)]
        · cases h
      · cases h
      · cases h
    · cases h
      exact ⟨le_refl _, by omega, hi, rfl, fun _ _ => rfl⟩

theorem add64_le (a b : Nat) : add64 a b ≤ a + b := by
  unfold add64
  exact Nat.mod_le _ _

theorem infoIterTrace_terminates (data : List Byte) (zipSize : Nat)
    (hlen : data.length < 2 ^ 63) : infoIterTrace data zipSize ≠ .diverge := by
  unfold infoIterTrace
  split
  · rename_i r _
    unfold decodeDirectory
    split
    · simp
    · simp only []
      apply decodeLoop_terminates _ _ _ _ _ _ hlen
      have h1 := add64_le (fileHdrIndex zipSize r.cdirStart64) r.cdirBytes64
      have h2 := Nat.lt_div_mul_add (a := r.cdirBytes64) (b := 46) (by norm_num)
      omega
  · simp
  · simp
  · rename_i hdiv
    unfold readEOCD at hdiv
    simp only [] at hdiv
    split at hdiv
    · cases hdiv
    · split at hdiv <;> cases hdiv

theorem readEOCD32_drop (data : List Byte) (k : Nat) (h : k + 22 ≤ data.length) :
    readEOCD32 (data.drop k) =
      { totalNumRecords := fieldAt data (k + 10) 2
        totalNumRecords64 := 0
        cdirBytes64 := fieldAt data (k + 12) 4
        cdirStart64 := fieldAt data (k + 16) 4 } := by
  unfold readEOCD32 fieldAt
  rw [binaryRead_drop data k 4 0 (by omega)]
  simp only []
  rw [binaryRead_drop data (k + 4) 2 0 (by omega)]
  simp only []
  rw [binaryRead_drop data (k + 4 + 2) 2 0 (by omega)]
  simp only []
  rw [binaryRead_drop data (k + 4 + 2 + 2) 2 0 (by omega)]
  simp only []
  rw [binaryRead_drop data (k + 4 + 2 + 2 + 2) 2 0 (by omega)]
  simp only []
  rw [binaryRead_drop data (k + 4 + 2 + 2 + 2 + 2) 4 0 (by omega)]
  simp only []
  rw [binaryRead_drop data (k + 4 + 2 + 2 + 2 + 2 + 4) 4 0 (by omega)]

theorem readEOCD_standard (data : List Byte) (k : Nat)
    (h64 : ∀ j, j < data.length → (data.drop j).take 4 ≠ magicEOCD64)
    (hocc : (data.drop k).take 4 = magicEOCD)
    (hlast : ∀ j, j < data.length → k < j → (data.drop j).take 4 ≠ magicEOCD)
    (hrec : k + 22 ≤ data.length) :
    readEOCD data = .ok
      { totalNumRecords := fieldAt data (k + 10) 2
        totalNumRecords64 := 0
        cdirBytes64 := fieldAt data (k + 12) 4
        cdirStart64 := fieldAt data (k + 16) 4 } := by
  have e64 : lastIndex data magicEOCD64 = -1 :=
    lastIndex_absent_of_bounded data magicEOCD64 (by decide) h64
  have e32 : lastIndex data magicEOCD = (k : Int) :=
    lastIndex_rightmost_of_bounded data magicEOCD k (by decide) hocc hlast
  unfold readEOCD
  simp only [e64, e32, Int.toNat_ofNat]
  rw [if_neg (by omega), if_neg (by omega), readEOCD32_drop data k hrec]

/-- The rest of `unpackCDirentry` once the extra-field loop has returned. -/
theorem unpackCDirentry_inside (data : List Byte) (offset : Nat)
    (hlen : data.length < 2 ^ 63)
    (hbuf : offset + 46 + (fixedAt data offset).FileNameLength
      + (fixedAt data offset).ExtraFieldLength ≤ data.length) :
    unpackCDirentry data offset =
      match extraLoop (fixedAt data offset).ExtraFieldLength
          ((data.drop (offset + 46 + (fixedAt data offset).FileNameLength)).take
            (fixedAt data offset).ExtraFieldLength)
          { fixedAt data offset with
            FileName := (data.drop (offset + 46)).take (fixedAt data offset).FileNameLength }
          0 with
      | .ok entry => .ok (offset + 46 + (fixedAt data offset).FileNameLength
          + (fixedAt data offset).ExtraFieldLength
          + (fixedAt data offset).FileCommentLength, entry)
      | .diverge => .diverge
      | _ => .panic := by
  have hfix := readFixed_drop data offset (by omega)
  obtain ⟨hn, he, hc⟩ := readFixed_lengths_lt (data.drop offset)
  unfold unpackCDirentry
  rw [hfix] at hn he hc ⊢
  generalize fixedAt data offset = fx at *
  rw [if_neg (by omega)]
  simp only []
  rw [add64_small offset 46 (by omega), add64_small (offset + 46) _ (by omega),
    add64_small (offset + 46 + fx.FileNameLength) _ (by omega),
    add64_small (offset + 46 + fx.FileNameLength + fx.ExtraFieldLength) _ (by omega),
    toInt64_small (offset + 46) (by omega),
    toInt64_small (offset + 46 + fx.FileNameLength) (by omega),
    toInt64_small (offset + 46 + fx.FileNameLength + fx.ExtraFieldLength) (by omega),
    goSlice_nat data _ _ (by omega) (by omega), goSlice_nat data _ _ (by omega) (by omega)]
  simp only []
  have l1 : offset + 46 + fx.FileNameLength - (offset + 46) = fx.FileNameLength := by omega
  have l2 : offset + 46 + fx.FileNameLength + fx.ExtraFieldLength
      - (offset + 46 + fx.FileNameLength) = fx.ExtraFieldLength := by omega
  rw [l1, l2]
  have l3 : ((data.drop (offset + 46 + fx.FileNameLength)).take fx.ExtraFieldLength).length
      = fx.ExtraFieldLength := by
    rw [List.length_take, List.length_drop]
    omega
  rw [l3]

theorem readVals_one (payload : List Byte) (h : payload.length = 8) :
    readVals 1 payload = [payloadVal payload 0] := by
  unfold readVals
  rw [if_pos (by omega)]
  rfl

theorem readVals_two (payload : List Byte) (h : payload.length = 16) :
    readVals 2 payload = [payloadVal payload 0, payloadVal payload 1] := by
  unfold readVals
  rw [if_pos (by omega)]
  rfl

theorem readVals_three (payload : List Byte) (h : payload.length = 24) :
    readVals 3 payload = [payloadVal payload 0, payloadVal payload 1, payloadVal payload 2] := by
  unfold readVals
  rw [if_pos (by omega)]
  rfl

theorem readVals_short (payload : List Byte) (h : payload.length = 0) :
    readVals 3 payload = [0, 0, 0] := by
  unfold readVals
  rw [if_neg (by omega)]
  rfl

/-- The ZIP64 block on a payload with exactly one 8-byte value per escaped
field. -/
theorem applyZip64_exact (payload : List Byte) (entry : CDirentry)
    (hpay : payload.length = 8 * (sentinelBit entry.UncompressedSize
      + sentinelBit entry.CompressedSize + sentinelBit entry.OffsetLocalHeader)) :
    applyZip64 payload.length payload entry = .ok
      { entry with
        UncompressedSize :=
          if entry.UncompressedSize = sentinel32 then payloadVal payload 0
          else entry.UncompressedSize
        CompressedSize :=
          if entry.CompressedSize = sentinel32 then
            payloadVal payload (sentinelBit entry.UncompressedSize)
          else entry.CompressedSize
        OffsetLocalHeader :=
          if entry.OffsetLocalHeader = sentinel32 then
            payloadVal payload (sentinelBit entry.UncompressedSize
              + sentinelBit entry.CompressedSize)
          else entry.OffsetLocalHeader } := by
  unfold applyZip64
  unfold sentinelBit at hpay ⊢
  by_cases hu : entry.UncompressedSize = sentinel32 <;>
  by_cases hc : entry.CompressedSize = sentinel32 <;>
  by_cases ho : entry.OffsetLocalHeader = sentinel32 <;>
  simp only [hu, hc, ho, if_true, if_false] at hpay ⊢ <;>
  simp only [sentinel32] at hu hc ho
  · have hN : payload.length = 24 := by omega
    rw [hN]
    norm_num
    rw [readVals_three payload hN]
    simp [takeVal, sentinel32, hu, hc, ho]
  · have hN : payload.length = 16 := by omega
    rw [hN]
    norm_num
    rw [readVals_two payload hN]
    simp [takeVal, sentinel32, hu, hc, ho]
  · have hN : payload.length = 16 := by omega
    rw [hN]
    norm_num
    rw [readVals_two payload hN]
    simp [takeVal, sentinel32, hu, hc, ho]
  · have hN : payload.length = 8 := by omega
    rw [hN]
    norm_num
    rw [readVals_one payload hN]
    simp [takeVal, sentinel32, hu, hc, ho]
  · have hN : payload.length = 16 := by omega
    rw [hN]
    norm_num
    rw [readVals_two payload hN]
    simp [takeVal, sentinel32, hu, hc, ho]
  · have hN : payload.length = 8 := by omega
    rw [hN]
    norm_num
    rw [readVals_one payload hN]
    simp [takeVal, sentinel32, hu, hc, ho]
  · have hN : payload.length = 8 := by omega
    rw [hN]
    norm_num
    rw [readVals_one payload hN]
    simp [takeVal, sentinel32, hu, hc, ho]
  · have hN : payload.length = 0 := by omega
    rw [hN]
    norm_num
    rw [readVals_short payload hN]
    simp [takeVal, sentinel32, hu, hc, ho]

theorem extraStep_zip64_first (sz : Byte) (payload : List Byte) (entry : CDirentry) :
    extraStep (1 :: 0 :: sz :: 0 :: payload) entry =
      match applyZip64 sz.val payload entry with
      | .ok e => .ok (e, 4 + sz.val)
      | _ => .panic := by
  unfold extraStep
  simp [binaryRead, leNat]

theorem extraLoop_single_zip64 (fuel : Nat) (sz : Byte) (payload : List Byte)
    (entry e : CDirentry) (hsz : sz.val = payload.length)
    (h : applyZip64 payload.length payload entry = .ok e) :
    extraLoop (fuel + 1) (1 :: 0 :: sz :: 0 :: payload) entry 0 = .ok e := by
  unfold extraLoop
  rw [if_pos (by simp), extraStep_zip64_first, hsz, h]
  simp only []
  exact extraLoop_done _ _ _ _ (by simp; omega)


theorem decodeLoop_skip (fuel : Nat) (data : List Byte) (idx cdirEnd : Nat)
    (entries : List CDirentry) (i : Nat) (h : cdirEnd ≤ idx) :
    decodeLoop fuel data idx cdirEnd entries i = .ok (entries, i) := by
  cases fuel with
  | zero => simp [decodeLoop, Nat.not_lt.2 h]
  | succ n => simp [decodeLoop, Nat.not_lt.2 h]

/-- A directory that begins before the 65536-byte window and ends inside it:
the index computed by `infoIter` wraps around, the loop is skipped and the
zero-valued slice is returned with a nil error. -/
theorem infoIter_directory_before_window (data : List Byte) (zipSize : Nat) (r : EOCD)
    (hr : readEOCD data = .ok r) (hz : zipSize < 2 ^ 64) (hbig : headerLen < zipSize)
    (hstart : r.cdirStart64 + headerLen < zipSize)
    (hend : zipSize ≤ r.cdirStart64 + r.cdirBytes64 + headerLen)
    (hin : r.cdirStart64 + r.cdirBytes64 ≤ zipSize) :
    infoIterTrace data zipSize = .ok (List.replicate r.totalNumRecords CDirentry.zero, 0) ∧
    infoIter data zipSize = .ok (List.replicate r.totalNumRecords CDirentry.zero) := by
  unfold infoIter infoIterTrace
  rw [hr]
  simp only [decodeDirectory]
  rw [if_neg (by omega)]
  have h1 : fileHdrIndex zipSize r.cdirStart64
      = 2 ^ 64 + headerLen - (zipSize - r.cdirStart64) := by
    unfold fileHdrIndex
    rw [if_neg (by omega)]
    unfold sub64
    have e1 : r.cdirStart64 % 2 ^ 64 = r.cdirStart64 := Nat.mod_eq_of_lt (by omega)
    have e2 : (zipSize + (2 ^ 64 - r.cdirStart64)) % 2 ^ 64 = zipSize - r.cdirStart64 := by
      have : zipSize + (2 ^ 64 - r.cdirStart64) = (zipSize - r.cdirStart64) + 2 ^ 64 := by
        omega
      rw [this, Nat.add_mod_right]
      exact Nat.mod_eq_of_lt (by omega)
    rw [e1, e2]
    have e3 : (zipSize - r.cdirStart64) % 2 ^ 64 = zipSize - r.cdirStart64 :=
      Nat.mod_eq_of_lt (by omega)
    rw [e3]
    unfold headerLen at *
    have e4 : 65536 + (2 ^ 64 - (zipSize - r.cdirStart64))
        = 2 ^ 64 + 65536 - (zipSize - r.cdirStart64) := by omega
    rw [e4]
    exact Nat.mod_eq_of_lt (by omega)
  have h2 : add64 (fileHdrIndex zipSize r.cdirStart64) r.cdirBytes64
      ≤ fileHdrIndex zipSize r.cdirStart64 := by
    rw [h1]
    unfold add64
    unfold headerLen at *
    have : 2 ^ 64 + 65536 - (zipSize - r.cdirStart64) + r.cdirBytes64
        = (65536 + r.cdirBytes64 - (zipSize - r.cdirStart64)) + 2 ^ 64 := by omega
    rw [this, Nat.add_mod_right]
    have := Nat.mod_le (65536 + r.cdirBytes64 - (zipSize - r.cdirStart64)) (2 ^ 64)
    omega
  rw [decodeLoop_skip _ _ _ _ _ _ h2]
  exact ⟨rfl, rfl⟩

theorem farDirectoryTail_length : farDirectoryTail.length = headerLen := by
  unfold farDirectoryTail
  rw [List.length_append, List.length_replicate]
  rfl

theorem lastIndexAux_zeros (sep : List Byte) (b : Byte) (t : List Byte) (hsep : sep = b :: t)
    (hb : b ≠ 0) (n : Nat) (rest : List Byte) (i : Nat) (acc : Int) :
    lastIndexAux sep (List.replicate n 0 ++ rest) i acc = lastIndexAux sep rest (i + n) acc := by
  induction n generalizing i with
  | zero => simp
  | succ m ih =>
    have hs : startsWith ((0 : Byte) :: (List.replicate m 0 ++ rest)) sep = false := by
      rw [hsep]
      simp only [startsWith, Bool.and_eq_false_imp, beq_iff_eq]
      intro h0
      exact absurd h0.symm hb
    rw [List.replicate_succ, List.cons_append, lastIndexAux, hs]
    simp only [Bool.false_eq_true, if_false]
    rw [ih (i + 1)]
    congr 1
    omega

theorem readEOCD_farDirectoryTail :
    readEOCD farDirectoryTail = .ok
      { totalNumRecords := 1000, totalNumRecords64 := 0, cdirBytes64 := 98978,
        cdirStart64 := 1000 } := by
  have e64 : lastIndex farDirectoryTail magicEOCD64 = -1 := by
    unfold lastIndex farDirectoryTail
    rw [if_neg (by decide),
      lastIndexAux_zeros magicEOCD64 0x50 [0x4b, 0x06, 0x06] rfl (by decide)]
    decide
  have e32 : lastIndex farDirectoryTail magicEOCD = 65514 := by
    unfold lastIndex farDirectoryTail
    rw [if_neg (by decide),
      lastIndexAux_zeros magicEOCD 0x50 [0x4b, 0x05, 0x06] rfl (by decide)]
    decide
  unfold readEOCD
  simp only [e64, e32]
  rw [if_neg (by omega), if_neg (by omega)]
  have hd : farDirectoryTail.drop (65514 : Int).toNat
      = [80, 75, 5, 6, 0, 0, 0, 0, 232, 3, 232, 3, 162, 130, 1, 0, 232, 3, 0, 0, 0, 0] := by
    unfold farDirectoryTail
    have e1 : (65514 : Int).toNat = 65514 := rfl
    rw [e1]
    exact List.drop_left' (by rw [List.length_replicate])
  rw [hd]
  decide


/-! ## Decoding what `buildArchive` lays out -/

theorem encodeLE_length (w v : Nat) : (encodeLE w v).length = w := by
  induction w generalizing v with
  | zero => rfl
  | succ n ih => simp [encodeLE, ih]

theorem leNat_encodeLE (w v : Nat) : leNat (encodeLE w v) = v % 256 ^ w := by
  induction w generalizing v with
  | zero => simp [encodeLE, leNat, Nat.mod_one]
  | succ n ih =>
    simp only [encodeLE, leNat, ih]
    rw [pow_succ', Nat.mod_mul]

theorem binaryRead_encodeLE (w v old : Nat) (rest : List Byte) (h : v < 256 ^ w) :
    binaryRead w (encodeLE w v ++ rest) old = (v, rest) := by
  unfold binaryRead
  rw [if_pos (by rw [List.length_append, encodeLE_length]; omega),
    List.take_left' (encodeLE_length w v), List.drop_left' (encodeLE_length w v),
    leNat_encodeLE, Nat.mod_eq_of_lt h]

theorem binaryRead2_encodeLE (v old : Nat) (rest : List Byte) (h : v < 65536) :
    binaryRead 2 (encodeLE 2 v ++ rest) old = (v, rest) :=
  binaryRead_encodeLE 2 v old rest (by norm_num; exact h)

theorem binaryRead4_encodeLE (v old : Nat) (rest : List Byte) (h : v < 4294967296) :
    binaryRead 4 (encodeLE 4 v ++ rest) old = (v, rest) :=
  binaryRead_encodeLE 4 v old rest (by norm_num; exact h)

theorem readFixed_centralRecord (m : Member) (off : Nat) (rest : List Byte)
    (hm : m.WellFormed) (hoff : off < 4294967295) :
    readFixed (centralRecord m off ++ rest) = { entryOf m off with FileName := [] } := by
  obtain ⟨_, _, h3, h4, h5, h6, h7, h8, h9, h10, h11, h12, h13, h14, h15, h16, h17⟩ := hm
  unfold readFixed centralRecord entryOf
  simp only [List.append_assoc]
  rw [binaryRead4_encodeLE _ _ _ (by norm_num)]
  simp only []
  rw [binaryRead2_encodeLE _ _ _ h3]
  simp only []
  rw [binaryRead2_encodeLE _ _ _ h4]
  simp only []
  rw [binaryRead2_encodeLE _ _ _ h5]
  simp only []
  rw [binaryRead2_encodeLE _ _ _ h6]
  simp only []
  rw [binaryRead2_encodeLE _ _ _ h7]
  simp only []
  rw [binaryRead2_encodeLE _ _ _ h8]
  simp only []
  rw [binaryRead4_encodeLE _ _ _ h9]
  simp only []
  rw [binaryRead4_encodeLE _ _ _ (by omega)]
  simp only []
  rw [binaryRead4_encodeLE _ _ _ (by omega)]
  simp only []
  rw [binaryRead2_encodeLE _ _ _ h15]
  simp only []
  rw [binaryRead2_encodeLE _ _ _ h16]
  simp only []
  rw [binaryRead2_encodeLE _ _ _ h17]
  simp only []
  rw [binaryRead2_encodeLE _ _ _ h12]
  simp only []
  rw [binaryRead2_encodeLE _ _ _ h13]
  simp only []
  rw [binaryRead4_encodeLE _ _ _ h14]
  simp only []
  rw [binaryRead4_encodeLE _ _ _ (by omega)]

theorem centralRecord_length (m : Member) (off : Nat) :
    (centralRecord m off).length
      = 46 + m.name.length + m.centralExtra.length + m.comment.length := by
  unfold centralRecord
  simp only [List.length_append, encodeLE_length]
  omega


theorem drop_add_of_drop_eq (data a b : List Byte) (i : Nat) (h : data.drop i = a ++ b) :
    data.drop (i + a.length) = b := by
  have h1 : (data.drop i).drop a.length = b := by rw [h, List.drop_left]
  rw [List.drop_drop] at h1
  rw [← h1]

theorem take_of_drop_eq (data a b : List Byte) (i : Nat) (h : data.drop i = a ++ b) :
    (data.drop i).take a.length = a := by
  rw [h, List.take_left]

theorem applyZip64_no_sentinel (fieldsz : Nat) (r : List Byte) (entry : CDirentry)
    (hu : entry.UncompressedSize ≠ 0xffffffff) (hc : entry.CompressedSize ≠ 0xffffffff)
    (ho : entry.OffsetLocalHeader ≠ 0xffffffff) :
    applyZip64 fieldsz r entry = .ok entry := by
  unfold applyZip64 takeVal
  simp only [if_neg hu, if_neg hc, if_neg ho]

theorem extraStep_no_sentinel (extra : List Byte) (entry : CDirentry)
    (hu : entry.UncompressedSize ≠ 0xffffffff) (hc : entry.CompressedSize ≠ 0xffffffff)
    (ho : entry.OffsetLocalHeader ≠ 0xffffffff) :
    ∃ d, 4 ≤ d ∧ extraStep extra entry = .ok (entry, d) := by
  unfold extraStep
  simp only []
  split
  · rw [applyZip64_no_sentinel _ _ _ hu hc ho]
    exact ⟨_, by omega, rfl⟩
  · exact ⟨_, by omega, rfl⟩

theorem extraLoop_no_sentinel (fuel : Nat) (extra : List Byte) (entry : CDirentry) (i : Nat)
    (hu : entry.UncompressedSize ≠ 0xffffffff) (hc : entry.CompressedSize ≠ 0xffffffff)
    (ho : entry.OffsetLocalHeader ≠ 0xffffffff) (h : extra.length ≤ i + 4 * fuel) :
    extraLoop fuel extra entry i = .ok entry := by
  induction fuel generalizing i with
  | zero =>
    unfold extraLoop
    rw [if_neg (by omega)]
  | succ n ih =>
    unfold extraLoop
    split
    · obtain ⟨d, hd, hs⟩ := extraStep_no_sentinel extra entry hu hc ho
      rw [hs]
      exact ih (i + d) (by omega)
    · rfl

theorem centralRecord_split (m : Member) (off : Nat) :
    ∃ fx : List Byte, fx.length = 46 ∧
      centralRecord m off = fx ++ (m.name ++ (m.centralExtra ++ m.comment)) := by
  refine ⟨encodeLE 4 0x02014b50 ++ (encodeLE 2 m.versionMadeBy ++ (encodeLE 2 m.versionNeeded ++
    (encodeLE 2 m.flags ++ (encodeLE 2 m.method ++ (encodeLE 2 m.modTime ++
    (encodeLE 2 m.modDate ++ (encodeLE 4 m.crc ++ (encodeLE 4 m.payload.length ++
    (encodeLE 4 m.uncompressedSize ++ (encodeLE 2 m.name.length ++
    (encodeLE 2 m.centralExtra.length ++ (encodeLE 2 m.comment.length ++
    (encodeLE 2 m.diskNumberStart ++ (encodeLE 2 m.internalAttrs ++
    (encodeLE 4 m.externalAttrs ++ encodeLE 4 off))))))))))))))), ?_, ?_⟩
  · simp only [List.length_append, encodeLE_length]
  · unfold centralRecord
    simp only [List.append_assoc]

/-- The function `unpackCDirentry` on the central-directory entry that
`centralRecord` lays out. -/
theorem unpackCDirentry_centralRecord (data : List Byte) (idx : Nat) (m : Member) (off : Nat)
    (rest : List Byte) (hdrop : data.drop idx = centralRecord m off ++ rest)
    (hlen : data.length < 2 ^ 63) (hm : m.WellFormed) (hoff : off < 4294967295) :
    unpackCDirentry data idx = .ok (idx + (centralRecord m off).length, entryOf m off) := by
  have hl := congrArg List.length hdrop
  rw [List.length_drop, List.length_append, centralRecord_length] at hl
  have hfx : fixedAt data idx = { entryOf m off with FileName := [] } := by
    rw [← readFixed_drop data idx (by omega), hdrop, readFixed_centralRecord m off rest hm hoff]
  obtain ⟨fx, hfxl, hsplit⟩ := centralRecord_split m off
  have hd1 : data.drop idx = fx ++ (m.name ++ (m.centralExtra ++ (m.comment ++ rest))) := by
    rw [hdrop, hsplit]
    simp only [List.append_assoc]
  have hd2 := drop_add_of_drop_eq data _ _ idx hd1
  rw [hfxl] at hd2
  have hd3 := drop_add_of_drop_eq data _ _ (idx + 46) hd2
  have hname : (data.drop (idx + 46)).take m.name.length = m.name :=
    take_of_drop_eq data _ _ _ hd2
  have hextra : (data.drop (idx + 46 + m.name.length)).take m.centralExtra.length
      = m.centralExtra := take_of_drop_eq data _ _ _ hd3
  have hun := unpackCDirentry_inside data idx hlen (by rw [hfx]; simp only [entryOf]; omega)
  rw [hfx] at hun
  simp only [entryOf] at hun
  rw [hname, hextra] at hun
  obtain ⟨_, _, _, _, _, _, _, _, _, h10, h11, _⟩ := hm
  rw [extraLoop_no_sentinel _ _ _ _ (by simp only []; omega) (by simp only []; omega)
    (by simp only []; omega) (by omega)] at hun
  rw [hun, centralRecord_length]
  simp only [entryOf]
  congr 2
  omega


theorem set_append_cons (done tl : List CDirentry) (z e : CDirentry) :
    (done ++ z :: tl).set done.length e = done ++ e :: tl := by
  induction done with
  | nil => rfl
  | cons a done ih => simp [ih]

theorem centralSection_length_ge (ps : List (Member × Nat)) :
    46 * ps.length ≤ (centralSection ps).length := by
  induction ps with
  | nil => simp [centralSection]
  | cons p ps ih =>
    simp only [centralSection, List.length_append, List.length_cons, centralRecord_length]
    omega

/-- The decode loop of `infoIter` on the central directory that
`centralSection` lays out: one entry per member, in order. -/
theorem decodeLoop_centralSection (ps : List (Member × Nat)) (fuel : Nat) (data : List Byte)
    (idx : Nat) (rest : List Byte) (done : List CDirentry)
    (hdrop : data.drop idx = centralSection ps ++ rest)
    (hlen : data.length < 2 ^ 63)
    (hps : ∀ p ∈ ps, p.1.WellFormed ∧ p.2 < 4294967295)
    (hfuel : ps.length ≤ fuel) :
    decodeLoop fuel data idx (idx + (centralSection ps).length)
        (done ++ List.replicate ps.length CDirentry.zero) done.length
      = .ok (done ++ ps.map (fun p => entryOf p.1 p.2), done.length + ps.length) := by
  induction ps generalizing fuel idx done with
  | nil =>
    rw [decodeLoop_skip _ _ _ _ _ _ (by simp [centralSection])]
    simp
  | cons p ps ih =>
    cases fuel with
    | zero => simp at hfuel
    | succ f =>
      have hd1 : data.drop idx = centralRecord p.1 p.2 ++ (centralSection ps ++ rest) := by
        rw [hdrop, centralSection, List.append_assoc]
      have hp := hps p (List.mem_cons_self _ _)
      have hun := unpackCDirentry_centralRecord data idx p.1 p.2 _ hd1 hlen hp.1 hp.2
      have hrl := centralRecord_length p.1 p.2
      unfold decodeLoop
      rw [if_pos (by simp only [centralSection, List.length_append]; omega), hun]
      simp only []
      rw [if_pos (by simp)]
      rw [List.length_cons, List.replicate_succ, set_append_cons]
      have hd2 := drop_add_of_drop_eq data _ _ idx hd1
      have hih := ih f (idx + (centralRecord p.1 p.2).length) (done ++ [entryOf p.1 p.2]) hd2
        (fun q hq => hps q (List.mem_cons_of_mem _ hq)) (by simpa using hfuel)
      have e1 : idx + (centralSection (p :: ps)).length
          = idx + (centralRecord p.1 p.2).length + (centralSection ps).length := by
        simp only [centralSection, List.length_append]
        omega
      have e2 : done ++ entryOf p.1 p.2 :: List.replicate ps.length CDirentry.zero
          = (done ++ [entryOf p.1 p.2]) ++ List.replicate ps.length CDirentry.zero := by
        simp
      have e3 : done.length + 1 = (done ++ [entryOf p.1 p.2]).length := by simp
      rw [e1, e2, e3, hih]
      simp only [List.length_append, List.length_cons, List.length_nil, List.map_cons,
        List.append_assoc, List.singleton_append]
      congr 2
      omega

theorem layout_length (ms : List Member) (base : Nat) : (layout ms base).length = ms.length := by
  induction ms generalizing base with
  | nil => rfl
  | cons m ms ih => simp [layout, ih]

theorem layout_mem (ms : List Member) (base : Nat) (p : Member × Nat) (h : p ∈ layout ms base) :
    p.1 ∈ ms ∧ base ≤ p.2 ∧ p.2 + (localRecord p.1).length ≤ base + (localSection ms).length := by
  induction ms generalizing base with
  | nil => simp [layout] at h
  | cons m ms ih =>
    simp only [layout, List.mem_cons] at h
    rcases h with h | h
    · subst h
      simp only [List.mem_cons, true_or, localSection, List.length_append, true_and]
      omega
    · obtain ⟨h1, h2, h3⟩ := ih _ h
      simp only [List.mem_cons, localSection, List.length_append]
      exact ⟨Or.inr h1, by omega, by omega⟩

/-- Where the `i`-th member's local section lies and where the next one
starts. -/
theorem layout_get (ms : List Member) (base i : Nat) (m : Member) (off : Nat)
    (h : (layout ms base)[i]? = some (m, off)) :
    base ≤ off ∧
    (∃ rest, (localSection ms).drop (off - base) = localRecord m ++ rest) ∧
    (∀ q, (layout ms base)[i + 1]? = some q → q.2 = off + (localRecord m).length) := by
  induction ms generalizing base i with
  | nil => simp [layout] at h
  | cons a ms ih =>
    cases i with
    | zero =>
      simp only [layout, List.getElem?_cons_zero, Option.some.injEq, Prod.mk.injEq] at h
      obtain ⟨h1, h2⟩ := h
      subst h1
      subst h2
      refine ⟨le_refl _, ⟨localSection ms, by simp [localSection]⟩, ?_⟩
      intro q hq
      simp only [layout, zero_add, List.getElem?_cons_succ] at hq
      cases ms with
      | nil => simp [layout] at hq
      | cons b ms =>
        simp only [layout, List.getElem?_cons_zero, Option.some.injEq] at hq
        rw [← hq]
    | succ j =>
      simp only [layout, List.getElem?_cons_succ] at h
      obtain ⟨h1, ⟨rest, h2⟩, h3⟩ := ih _ j h
      refine ⟨by omega, ⟨rest, ?_⟩, ?_⟩
      · have e : off - base = (localRecord a).length + (off - (base + (localRecord a).length)) := by
          omega
        rw [localSection, e, ← List.drop_drop, List.drop_left, h2]
      · intro q hq
        simp only [layout, List.getElem?_cons_succ] at hq
        exact h3 q hq


theorem readEOCD_at (data : List Byte) (k : Nat)
    (h64 : ∀ j, j < data.length → (data.drop j).take 4 ≠ magicEOCD64)
    (hocc : (data.drop k).take 4 = magicEOCD)
    (hlast : ∀ j, j < data.length → k < j → (data.drop j).take 4 ≠ magicEOCD) :
    readEOCD data = .ok (readEOCD32 (data.drop k)) := by
  have e64 : lastIndex data magicEOCD64 = -1 :=
    lastIndex_absent_of_bounded data magicEOCD64 (by decide) h64
  have e32 : lastIndex data magicEOCD = (k : Int) :=
    lastIndex_rightmost_of_bounded data magicEOCD k (by decide) hocc hlast
  unfold readEOCD
  simp only [e64, e32, Int.toNat_ofNat]
  rw [if_neg (by omega), if_neg (by omega)]

theorem readEOCD32_eocdRecord (count cdirBytes cdirStart : Nat) (comment : List Byte)
    (hc : count < 65536) (hb : cdirBytes < 4294967296) (hs : cdirStart < 4294967296) :
    readEOCD32 (eocdRecord count cdirBytes cdirStart comment) =
      { totalNumRecords := count, totalNumRecords64 := 0, cdirBytes64 := cdirBytes,
        cdirStart64 := cdirStart } := by
  unfold readEOCD32 eocdRecord
  rw [binaryRead4_encodeLE _ _ _ (by norm_num)]
  simp only []
  rw [binaryRead2_encodeLE _ _ _ (by norm_num)]
  simp only []
  rw [binaryRead2_encodeLE _ _ _ (by norm_num)]
  simp only []
  rw [binaryRead2_encodeLE _ _ _ hc]
  simp only []
  rw [binaryRead2_encodeLE _ _ _ hc]
  simp only []
  rw [binaryRead4_encodeLE _ _ _ hb]
  simp only []
  rw [binaryRead4_encodeLE _ _ _ hs]

theorem eocdRecord_take (count cdirBytes cdirStart : Nat) (comment : List Byte) :
    (eocdRecord count cdirBytes cdirStart comment).take 4 = magicEOCD := by
  unfold eocdRecord
  rw [List.take_left' (encodeLE_length _ _)]
  decide

theorem eocdRecord_length (count cdirBytes cdirStart : Nat) (comment : List Byte) :
    (eocdRecord count cdirBytes cdirStart comment).length = 22 + comment.length := by
  unfold eocdRecord
  simp only [List.length_append, encodeLE_length]
  omega

theorem sub64_small (a b : Nat) (hb : b ≤ a) (ha : a < 2 ^ 64) : sub64 a b = a - b := by
  unfold sub64
  have e1 : b % 2 ^ 64 = b := Nat.mod_eq_of_lt (by omega)
  have e2 : a + (2 ^ 64 - b) = (a - b) + 2 ^ 64 := by omega
  rw [e1, e2, Nat.add_mod_right]
  exact Nat.mod_eq_of_lt (by omega)

theorem buildArchive_length (ms : List Member) (comment : List Byte) :
    (buildArchive ms comment).length
      = (localSection ms).length + (centralSection (layout ms 0)).length + 22
        + comment.length := by
  unfold buildArchive
  simp only [List.length_append, eocdRecord_length]
  omega

theorem infoIterTrace_of_readEOCD (data : List Byte) (zipSize : Nat) (r : EOCD)
    (hr : readEOCD data = .ok r) :
    infoIterTrace data zipSize = decodeDirectory data zipSize r := by
  simp [infoIterTrace, hr]

theorem infoIter_of_trace (data : List Byte) (zipSize : Nat) (es : List CDirentry) (n : Nat)
    (h : infoIterTrace data zipSize = .ok (es, n)) : infoIter data zipSize = .ok es := by
  simp [infoIter, h]

theorem decodeDirectory_inside (data : List Byte) (zipSize count cdirBytes cdirStart : Nat)
    (h : cdirStart < zipSize) :
    decodeDirectory data zipSize
        { totalNumRecords := count, totalNumRecords64 := 0, cdirBytes64 := cdirBytes,
          cdirStart64 := cdirStart }
      = decodeLoop (cdirBytes / 46 + 1) data (fileHdrIndex zipSize cdirStart)
          (add64 (fileHdrIndex zipSize cdirStart) cdirBytes)
          (List.replicate count CDirentry.zero) 0 := by
  unfold decodeDirectory
  simp only []
  rw [if_neg (by omega)]

/-- The entry list `infoIter` returns for the tail window of an archive
without ZIP64 whose directory starts inside the window. -/
theorem infoIter_buildArchive (ms : List Member) (comment : List Byte)
    (hms : ∀ m ∈ ms, m.WellFormed) (hcount : ms.length < 65536)
    (hL : (buildArchive ms comment).length < 4294967295)
    (hwin : (buildArchive ms comment).length ≤ (localSection ms).length + headerLen)
    (h64 : ∀ j, j < (tailWindow (buildArchive ms comment)).length →
      ((tailWindow (buildArchive ms comment)).drop j).take 4 ≠ magicEOCD64)
    (h32 : ∀ j, j < (tailWindow (buildArchive ms comment)).length →
      eocdIndexInTail ms comment < j →
      ((tailWindow (buildArchive ms comment)).drop j).take 4 ≠ magicEOCD) :
    infoIter (tailWindow (buildArchive ms comment)) (buildArchive ms comment).length
      = .ok (entriesOf ms) := by
  have hAl := buildArchive_length ms comment
  have hA : buildArchive ms comment = localSection ms ++ (centralSection (layout ms 0) ++
      eocdRecord ms.length (centralSection (layout ms 0)).length (localSection ms).length
        comment) := rfl
  generalize hAdef : buildArchive ms comment = A at *
  generalize hloc : localSection ms = loc at *
  generalize hcd : centralSection (layout ms 0) = cd at *
  have hs : A.length - headerLen ≤ loc.length := by omega
  -- the window, from the directory on
  have hd0 : A.drop loc.length = cd ++ eocdRecord ms.length cd.length loc.length comment := by
    rw [hA, List.drop_left]
  have hd1 : (tailWindow A).drop (loc.length - (A.length - headerLen))
      = cd ++ eocdRecord ms.length cd.length loc.length comment := by
    unfold tailWindow
    rw [List.drop_drop, Nat.add_sub_cancel' hs, hd0]
  have hd2 := drop_add_of_drop_eq _ _ _ _ hd1
  have hk : eocdIndexInTail ms comment = loc.length - (A.length - headerLen) + cd.length := by
    unfold eocdIndexInTail
    rw [hloc, hcd, hAdef]
    omega
  rw [hk] at h32
  have hr := readEOCD_at (tailWindow A) _ h64 (by rw [hd2, eocdRecord_take]) h32
  rw [hd2, readEOCD32_eocdRecord _ _ _ _ hcount (by omega) (by omega)] at hr
  have htl : (tailWindow A).length < 2 ^ 63 := by
    unfold tailWindow
    rw [List.length_drop]
    omega
  have hidx : fileHdrIndex A.length loc.length = loc.length - (A.length - headerLen) := by
    unfold fileHdrIndex
    split
    · omega
    · rw [sub64_small A.length loc.length (by omega) (by omega),
        sub64_small headerLen _ (by omega) (by unfold headerLen; norm_num)]
      omega
  have hps : ∀ p ∈ layout ms 0, p.1.WellFormed ∧ p.2 < 4294967295 := by
    intro p hp
    obtain ⟨h1, _, h3⟩ := layout_mem ms 0 p hp
    rw [hloc] at h3
    exact ⟨hms _ h1, by omega⟩
  have hge := centralSection_length_ge (layout ms 0)
  rw [hcd, layout_length] at hge
  have hloop := decodeLoop_centralSection (layout ms 0) (cd.length / 46 + 1) (tailWindow A)
    (loc.length - (A.length - headerLen)) _ [] (by rw [hcd]; exact hd1) htl hps
    (by rw [layout_length]; omega)
  rw [hcd, layout_length] at hloop
  simp only [List.nil_append, List.length_nil, zero_add] at hloop
  apply infoIter_of_trace _ _ _ ms.length
  rw [infoIterTrace_of_readEOCD _ _ _ hr, decodeDirectory_inside _ _ _ _ _ (by omega), hidx,
    add64_small _ _ (by omega), hloop]
  rfl


theorem wrapInt64_small (x : Int) (h0 : -(2 ^ 63) ≤ x) (h1 : x < 2 ^ 63) : wrapInt64 x = x := by
  unfold wrapInt64
  rw [Int.emod_eq_of_lt (by omega) (by omega)]
  omega

theorem fakeRemote_nat (content : List Byte) (off np : Nat) (hnp : 1 ≤ np)
    (hoff : off < content.length) :
    fakeRemote content (off : Int) ((off : Int) + (np : Int) - 1)
      = some ((content.drop off).take np) := by
  unfold fakeRemote
  rw [if_pos ⟨by omega, by omega, by omega⟩]
  congr 2
  omega

theorem getRange_fakeRemote (content : List Byte) (off np : Nat) (hnp : 1 ≤ np)
    (hoff : off < content.length) (ho : off < 2 ^ 62) (hn : np < 2 ^ 62) :
    getRange (fakeRemote content) (toInt64 off) (toInt64 np)
      = .ok ((content.drop off).take np) := by
  unfold getRange rangeHeader
  simp only []
  rw [toInt64_small off (by omega), toInt64_small np (by omega),
    wrapInt64_small _ (by omega) (by omega), fakeRemote_nat content off np hnp hoff]

theorem readPayload_localRecord (m : Member) (rest : List Byte) (entry : CDirentry)
    (hm : m.WellFormed) (he1 : entry.FileNameLength = m.name.length)
    (he2 : entry.CompressedSize = m.payload.length) :
    readPayload (m.localFixed ++ (encodeLE 2 m.localExtra.length ++
      (m.name ++ (m.localExtra ++ (m.payload ++ rest))))) entry = .ok m.payload := by
  obtain ⟨h1, h2, _, _, _, _, _, _, _, h10, _⟩ := hm
  unfold readPayload
  rw [List.drop_left' h1, binaryRead2_encodeLE _ _ _ h2]
  simp only []
  rw [he1, he2]
  have hd : (m.name ++ (m.localExtra ++ (m.payload ++ rest))).drop
      (m.name.length + m.localExtra.length) = m.payload ++ rest := by
    rw [← List.append_assoc, List.drop_left' (by rw [List.length_append])]
  rw [hd, if_neg (by unfold maxAlloc; omega), if_neg (by rw [List.length_append]; omega),
    List.take_left]

theorem take_localRecord (m : Member) (w : List Byte) (np : Nat)
    (h : (localRecord m).length ≤ np) :
    ∃ rest, (localRecord m ++ w).take np = m.localFixed ++ (encodeLE 2 m.localExtra.length ++
      (m.name ++ (m.localExtra ++ (m.payload ++ rest)))) := by
  refine ⟨m.trailer ++ w.take (np - (localRecord m).length), ?_⟩
  rw [List.take_append_eq_append_take, List.take_of_length_le h]
  unfold localRecord
  simp only [List.append_assoc]

theorem nextPos_entriesOf (ms : List Member) (fileLen i : Nat) (m : Member) (off : Nat)
    (hget : (layout ms 0)[i]? = some (m, off))
    (hfl : off + (localRecord m).length ≤ fileLen) :
    off + (localRecord m).length ≤ nextPos (entriesOf ms) fileLen i := by
  unfold nextPos
  split
  · rename_i hlt
    unfold entriesOf at hlt ⊢
    rw [List.length_map] at hlt
    have hq : (layout ms 0)[i + 1]? = some ((layout ms 0)[i + 1]) :=
      List.getElem?_eq_getElem hlt
    have h3 := (layout_get ms 0 i m off hget).2.2 _ hq
    rw [List.getD_eq_getElem?_getD, List.getElem?_map, hq]
    simp only [Option.map_some', Option.getD_some, entryOf]
    omega
  · exact hfl

/-- Extraction of one member of `buildArchive ms comment` against the fake
remote object holding the archive. -/
theorem extractEntry_buildArchive (ms : List Member) (comment : List Byte)
    (inflate : List Byte → List Byte) (i : Nat) (m : Member) (off : Nat)
    (hms : ∀ m ∈ ms, m.WellFormed)
    (hL : (buildArchive ms comment).length < 4294967295)
    (hget : (layout ms 0)[i]? = some (m, off)) :
    extractEntry (fakeRemote (buildArchive ms comment)) inflate (entriesOf ms)
        (buildArchive ms comment).length i (entryOf m off)
      = .ok (m.name, decompress inflate m.method m.payload) := by
  have hmem : (m, off) ∈ layout ms 0 := List.getElem?_mem hget
  obtain ⟨hm1, _, hm3⟩ := layout_mem ms 0 _ hmem
  obtain ⟨_, ⟨rest, hrest⟩, _⟩ := layout_get ms 0 i m off hget
  simp only [Nat.sub_zero, zero_add] at hrest hm3
  have hAl := buildArchive_length ms comment
  have hnp := nextPos_entriesOf ms (buildArchive ms comment).length i m off hget (by omega)
  have hrl : 30 ≤ (localRecord m).length := by
    have := (hms m hm1).1
    unfold localRecord
    simp only [List.length_append, encodeLE_length]
    omega
  have hnp2 : nextPos (entriesOf ms) (buildArchive ms comment).length i < 4294967295 := by
    unfold nextPos
    split
    · rename_i hlt
      unfold entriesOf at hlt ⊢
      rw [List.length_map] at hlt
      have hq : (layout ms 0)[i + 1]? = some ((layout ms 0)[i + 1]) :=
        List.getElem?_eq_getElem hlt
      have hqm := layout_mem ms 0 _ (List.getElem?_mem hq)
      rw [List.getD_eq_getElem?_getD, List.getElem?_map, hq]
      simp only [Option.map_some', Option.getD_some, entryOf]
      omega
    · exact hL
  have hdrop : (buildArchive ms comment).drop off = localRecord m ++ (rest ++
      (centralSection (layout ms 0) ++ eocdRecord ms.length (centralSection (layout ms 0)).length
        (localSection ms).length comment)) := by
    unfold buildArchive
    rw [List.drop_append_of_le_length (by omega), hrest, List.append_assoc]
  obtain ⟨z, hz⟩ := take_localRecord m (rest ++ (centralSection (layout ms 0) ++
    eocdRecord ms.length (centralSection (layout ms 0)).length (localSection ms).length comment))
    (nextPos (entriesOf ms) (buildArchive ms comment).length i) (by omega)
  unfold extractEntry
  simp only [entryOf]
  rw [getRange_fakeRemote _ _ _ (by omega) (by omega) (by omega) (by omega), hdrop, hz]
  simp only []
  rw [readPayload_localRecord m z _ (hms m hm1) rfl rfl]


theorem layout_filter_map (ms : List Member) (base : Nat) (f : Member → Bool)
    (g : Member → List Byte × List Byte) :
    ((layout ms base).filter (fun p => f p.1)).map (fun p => g p.1) = (ms.filter f).map g := by
  induction ms generalizing base with
  | nil => rfl
  | cons m ms ih =>
    simp only [layout, List.filter_cons]
    split
    · simp only [List.map_cons, ih]
    · exact ih _

theorem mainFrom_of_infoIter (fetch : Int → Int → Option (List Byte))
    (inflate : List Byte → List Byte) (data : List Byte) (fileLen : Nat)
    (toExtract : List Byte) (entries : List CDirentry)
    (h : infoIter data fileLen = .ok entries) :
    mainFrom fetch inflate data fileLen toExtract
      = mainLoop fetch inflate entries fileLen toExtract entries 0 := by
  simp [mainFrom, h]

/-- The loop of `main` over the entries of `buildArchive ms comment` from
index `k` on. -/
theorem mainLoop_buildArchive (ms : List Member) (comment : List Byte)
    (inflate : List Byte → List Byte) (toExtract : List Byte)
    (hms : ∀ m ∈ ms, m.WellFormed)
    (hL : (buildArchive ms comment).length < 4294967295)
    (ps : List (Member × Nat)) (k : Nat) (hps : (layout ms 0).drop k = ps) :
    mainLoop (fakeRemote (buildArchive ms comment)) inflate (entriesOf ms)
        (buildArchive ms comment).length toExtract (ps.map (fun p => entryOf p.1 p.2)) k
      = ((ps.filter (fun p => decide (p.1.name = toExtract))).map
          (fun p => (p.1.name, decompress inflate p.1.method p.1.payload)), .ok ()) := by
  induction ps generalizing k with
  | nil => rfl
  | cons p ps ih =>
    have hk : (layout ms 0)[k]? = some (p.1, p.2) := by
      have h0 : ((layout ms 0).drop k)[0]? = some p := by rw [hps]; simp
      rw [List.getElem?_drop] at h0
      simpa using h0
    have hnext : (layout ms 0).drop (k + 1) = ps := by
      have h1 : ((layout ms 0).drop k).drop 1 = ps := by rw [hps]; rfl
      rw [List.drop_drop] at h1
      rw [← h1]
    have hex := extractEntry_buildArchive ms comment inflate k p.1 p.2 hms hL hk
    have hrec := ih (k + 1) hnext
    simp only [List.map_cons, mainLoop, List.filter_cons]
    by_cases hname : p.1.name = toExtract
    · have hfn : (entryOf p.1 p.2).FileName = toExtract := hname
      rw [if_pos hfn, hex]
      simp only [hrec, hname, decide_True, if_true, List.map_cons]
    · have hfn : ¬ (entryOf p.1 p.2).FileName = toExtract := hname
      rw [if_neg hfn, hrec]
      simp only [hname, decide_False, Bool.false_eq_true, if_false]


/-! ## Properties of the specification -/

/-- C5: a tail buffer with no index at which the ZIP64 signature or the
standard signature occurs makes `infoIter` panic (the slice `data[i:]` with
`i = -1`), for every archive length; it does not return the
directory-not-found error. -/
theorem infoIter_panics_without_signature (data : List Byte) (zipSize : Nat)
    (h64 : ∀ j, j < data.length → (data.drop j).take 4 ≠ magicEOCD64)
    (h32 : ∀ j, j < data.length → (data.drop j).take 4 ≠ magicEOCD) :
    infoIter data zipSize = .panic := by
  simp [infoIter, infoIterTrace, readEOCD_without_signature data h64 h32]

theorem infoIter_panics_without_signature_witness :
    infoIter [104, 101, 108, 108, 111, 32, 119, 111, 114, 108, 100] 11 = .panic :=
  infoIter_panics_without_signature [104, 101, 108, 108, 111, 32, 119, 111, 114, 108, 100] 11
    (by decide) (by decide)

/-- C6: when the ZIP64 end-of-central-directory signature occurs in the tail
buffer and at least 56 bytes follow the start of its rightmost occurrence `i`,
the central-directory byte size and start offset `infoIter` goes on with are
the little-endian 8-byte values at `i + 40` and `i + 48`, whatever else the
buffer holds (a standard record included). -/
theorem zip64_record_takes_precedence (data : List Byte) (zipSize i : Nat)
    (hocc : (data.drop i).take 4 = magicEOCD64)
    (hlast : ∀ j, j < data.length → i < j → (data.drop j).take 4 ≠ magicEOCD64)
    (hlen : i + 56 ≤ data.length) :
    readEOCD data = .ok
      { totalNumRecords := 0
        totalNumRecords64 := leNat ((data.drop (i + 32)).take 8)
        cdirBytes64 := leNat ((data.drop (i + 40)).take 8)
        cdirStart64 := leNat ((data.drop (i + 48)).take 8) } ∧
    infoIterTrace data zipSize = decodeDirectory data zipSize
      { totalNumRecords := 0
        totalNumRecords64 := leNat ((data.drop (i + 32)).take 8)
        cdirBytes64 := leNat ((data.drop (i + 40)).take 8)
        cdirStart64 := leNat ((data.drop (i + 48)).take 8) } := by
  have h := readEOCD_zip64 data i hocc hlast hlen
  exact ⟨h, by simp [infoIterTrace, h]⟩

set_option maxRecDepth 100000 in
theorem zip64_record_takes_precedence_witness :
    readEOCD zip64Archive = .ok
      { totalNumRecords := 0, totalNumRecords64 := 1, cdirBytes64 := 51, cdirStart64 := 41 } ∧
    readEOCD32 (zip64Archive.drop 168) =
      { totalNumRecords := 65535, totalNumRecords64 := 0, cdirBytes64 := 4294967295,
        cdirStart64 := 4294967295 } :=
  ⟨(zip64_record_takes_precedence zip64Archive 190 92 (by decide) (by decide) (by decide)).1,
    by decide⟩


/-- C10: on a buffer of Go length (below `2^63`), a returning call of
`unpackCDirentry` leaves the cursor at `offset + 46 + fileNameLength +
extraFieldLength + fileCommentLength`, strictly past `offset`; each pass of
its extra-field loop adds at least 4 to the loop index and the loop ends
within its fuel; and the decode loop of `infoIter`, started anywhere with any
directory size `cdirBytes`, is over after at most `cdirBytes / 46 + 1` passes,
so `infoIter` never runs out of fuel. -/
theorem infoIter_decode_loop_terminates (data : List Byte) (hlen : data.length < 2 ^ 63) :
    (∀ offset cur entry, unpackCDirentry data offset = .ok (cur, entry) →
      cur = offset + 46 + entry.FileNameLength + entry.ExtraFieldLength
        + entry.FileCommentLength ∧ offset < cur) ∧
    (∀ extra entry e d, extraStep extra entry = .ok (e, d) → 4 ≤ d) ∧
    (∀ offset, unpackCDirentry data offset ≠ .diverge) ∧
    (∀ start cdirBytes entries,
      decodeLoop (cdirBytes / 46 + 1) data start (add64 start cdirBytes) entries 0 ≠ .diverge ∧
      ∀ es n, decodeLoop (cdirBytes / 46 + 1) data start (add64 start cdirBytes) entries 0
        = .ok (es, n) → n ≤ cdirBytes / 46 + 1) ∧
    (∀ zipSize, infoIter data zipSize ≠ .diverge) := by
  refine ⟨?_, ?_, ?_, ?_, ?_⟩
  · intro offset cur entry h
    have hc := unpackCDirentry_cursor data offset cur entry hlen h
    exact ⟨hc, by omega⟩
  · intro extra entry e d h
    exact (extraStep_fields extra entry e d h).2
  · exact unpackCDirentry_terminates data
  · intro start cdirBytes entries
    refine ⟨?_, ?_⟩
    · apply decodeLoop_terminates _ _ _ _ _ _ hlen
      have h1 := add64_le start cdirBytes
      have h2 := Nat.lt_div_mul_add (a := cdirBytes) (b := 46) (by norm_num)
      omega
    · intro es n h
      have := (decodeLoop_result _ _ _ _ _ _ _ _ (Nat.zero_le _) h).2.1
      omega
  · intro zipSize
    have h := infoIterTrace_terminates data zipSize hlen
    unfold infoIter
    split <;> simp_all

set_option maxRecDepth 100000 in
theorem infoIter_decode_loop_terminates_witness :
    infoIter scenarioArchive 305 ≠ .diverge ∧
      ∀ es n, decodeLoop (153 / 46 + 1) scenarioArchive 130 (add64 130 153)
        (List.replicate 3 CDirentry.zero) 0 = .ok (es, n) → n ≤ 153 / 46 + 1 :=
  ⟨(infoIter_decode_loop_terminates scenarioArchive (by decide)).2.2.2.2 305,
   ((infoIter_decode_loop_terminates scenarioArchive (by decide)).2.2.2.1 130 153
      (List.replicate 3 CDirentry.zero)).2⟩

/-- C3 (amended): when no ZIP64 signature occurs in the tail buffer and the
standard record (22 bytes at its rightmost signature `k`) is inside it, a list
returned by `infoIter` has exactly as many entries as the record's 2-byte
total count declares, the number of entries decoded is at most that count,
and every position from the decoded count on holds a zero-valued entry; a
decoded count below the declared one is not reported as an error. -/
theorem infoIter_count_standard (data : List Byte) (zipSize k : Nat)
    (entries : List CDirentry) (n : Nat)
    (h64 : ∀ j, j < data.length → (data.drop j).take 4 ≠ magicEOCD64)
    (hocc : (data.drop k).take 4 = magicEOCD)
    (hlast : ∀ j, j < data.length → k < j → (data.drop j).take 4 ≠ magicEOCD)
    (hrec : k + 22 ≤ data.length)
    (h : infoIterTrace data zipSize = .ok (entries, n)) :
    infoIter data zipSize = .ok entries ∧
    entries.length = fieldAt data (k + 10) 2 ∧ n ≤ fieldAt data (k + 10) 2 ∧
      ∀ j, n ≤ j → j < entries.length → entries[j]? = some CDirentry.zero := by
  have hr := readEOCD_standard data k h64 hocc hlast hrec
  have hi : infoIter data zipSize = .ok entries := by simp [infoIter, h]
  unfold infoIterTrace at h
  rw [hr] at h
  simp only [decodeDirectory] at h
  split at h
  · cases h
  · obtain ⟨_, _, h3, h4, h5⟩ := decodeLoop_result _ _ _ _ _ _ _ _ (Nat.zero_le _) h
    rw [List.length_replicate] at h3 h4
    refine ⟨hi, h4, h3, ?_⟩
    intro j hj hjl
    rw [h5 j hj, List.getElem?_replicate, if_pos (by omega)]

set_option maxRecDepth 100000 in
theorem infoIter_count_standard_witness :
    infoIter inconsistentArchive 305
        = .ok (scenarioEntries ++ [CDirentry.zero, CDirentry.zero]) ∧
    (scenarioEntries ++ [CDirentry.zero, CDirentry.zero]).length
      = fieldAt inconsistentArchive 293 2 ∧
    3 ≤ fieldAt inconsistentArchive 293 2 ∧
      ∀ j, 3 ≤ j → j < (scenarioEntries ++ [CDirentry.zero, CDirentry.zero]).length →
        (scenarioEntries ++ [CDirentry.zero, CDirentry.zero])[j]? = some CDirentry.zero :=
  infoIter_count_standard inconsistentArchive 305 283
    (scenarioEntries ++ [CDirentry.zero, CDirentry.zero]) 3
    (by decide) (by decide) (by decide) (by decide) (by decide)

set_option maxRecDepth 100000 in
/-- C3 (counterexample): the record of `inconsistentArchive` declares 5
entries and its directory holds 3; `infoIter` decodes 3 entries and returns a
list of 5 with a nil error. -/
theorem infoIter_count_mismatch_no_error :
    fieldAt inconsistentArchive 293 2 = 5 ∧
    infoIterTrace inconsistentArchive 305
      = .ok (scenarioEntries ++ [CDirentry.zero, CDirentry.zero], 3) ∧
    infoIter inconsistentArchive 305
      = .ok (scenarioEntries ++ [CDirentry.zero, CDirentry.zero]) := by
  decide


/-- C7: for an entry inside a buffer of Go length whose extra field is a
single ZIP64 sub-record (id 1, size byte `sz`, payload) with exactly one
8-byte value per field whose raw 32-bit value is `0xFFFFFFFF`,
`unpackCDirentry` returns an entry in which uncompressed size, compressed
size and local-header offset, in that order, hold the next payload value when
their raw value is the escape value and their raw value otherwise, a field
that is not escaped using up no payload value. -/
theorem sentinel_substitution (data : List Byte) (offset : Nat) (sz : Byte)
    (payload : List Byte) (hlen : data.length < 2 ^ 63)
    (hbuf : offset + 46 + (fixedAt data offset).FileNameLength
      + (fixedAt data offset).ExtraFieldLength ≤ data.length)
    (hextra : (data.drop (offset + 46 + (fixedAt data offset).FileNameLength)).take
      (fixedAt data offset).ExtraFieldLength = 1 :: 0 :: sz :: 0 :: payload)
    (hsz : sz.val = payload.length)
    (hpay : payload.length = 8 * (sentinelBit (fixedAt data offset).UncompressedSize
      + sentinelBit (fixedAt data offset).CompressedSize
      + sentinelBit (fixedAt data offset).OffsetLocalHeader)) :
    ∃ cur entry, unpackCDirentry data offset = .ok (cur, entry) ∧
      entry.UncompressedSize =
        (if (fixedAt data offset).UncompressedSize = sentinel32 then payloadVal payload 0
         else (fixedAt data offset).UncompressedSize) ∧
      entry.CompressedSize =
        (if (fixedAt data offset).CompressedSize = sentinel32 then
           payloadVal payload (sentinelBit (fixedAt data offset).UncompressedSize)
         else (fixedAt data offset).CompressedSize) ∧
      entry.OffsetLocalHeader =
        (if (fixedAt data offset).OffsetLocalHeader = sentinel32 then
           payloadVal payload (sentinelBit (fixedAt data offset).UncompressedSize
             + sentinelBit (fixedAt data offset).CompressedSize)
         else (fixedAt data offset).OffsetLocalHeader) := by
  have hun := unpackCDirentry_inside data offset hlen hbuf
  have hel : (fixedAt data offset).ExtraFieldLength = payload.length + 3 + 1 := by
    have h := congrArg List.length hextra
    rw [List.length_take, List.length_drop] at h
    simp only [List.length_cons] at h
    omega
  rw [hextra, hel] at hun
  have hz := applyZip64_exact payload
    { fixedAt data offset with
      FileName := (data.drop (offset + 46)).take (fixedAt data offset).FileNameLength } hpay
  rw [extraLoop_single_zip64 _ sz payload _ _ hsz hz] at hun
  exact ⟨_, _, hun, rfl, rfl, rfl⟩

set_option maxRecDepth 100000 in
theorem sentinel_substitution_witness :
    (∃ cur entry, unpackCDirentry zip64Entry 0 = .ok (cur, entry) ∧
      entry.UncompressedSize =
        (if (fixedAt zip64Entry 0).UncompressedSize = sentinel32 then
           payloadVal [154, 120, 86, 52, 18, 0, 0, 0, 85, 68, 51, 34, 17, 0, 0, 0] 0
         else (fixedAt zip64Entry 0).UncompressedSize) ∧
      entry.CompressedSize =
        (if (fixedAt zip64Entry 0).CompressedSize = sentinel32 then
           payloadVal [154, 120, 86, 52, 18, 0, 0, 0, 85, 68, 51, 34, 17, 0, 0, 0]
             (sentinelBit (fixedAt zip64Entry 0).UncompressedSize)
         else (fixedAt zip64Entry 0).CompressedSize) ∧
      entry.OffsetLocalHeader =
        (if (fixedAt zip64Entry 0).OffsetLocalHeader = sentinel32 then
           payloadVal [154, 120, 86, 52, 18, 0, 0, 0, 85, 68, 51, 34, 17, 0, 0, 0]
             (sentinelBit (fixedAt zip64Entry 0).UncompressedSize
               + sentinelBit (fixedAt zip64Entry 0).CompressedSize)
         else (fixedAt zip64Entry 0).OffsetLocalHeader)) ∧
    (unpackCDirentry zip64Entry 0).toOption.map
        (fun p => (p.2.UncompressedSize, p.2.CompressedSize, p.2.OffsetLocalHeader))
      = some (0x123456789A, 0x1122334455, 256) :=
  ⟨sentinel_substitution zip64Entry 0 16
    [154, 120, 86, 52, 18, 0, 0, 0, 85, 68, 51, 34, 17, 0, 0, 0]
    (by decide) (by decide) (by decide) (by decide) (by decide), by decide⟩


/-- C4 (failing input): for an archive of 100000 bytes whose standard record
puts the central directory at offset 1000, 33464 bytes before the 65536-byte
tail window, `infoIter` returns a nil error with 1000 zero-valued entries,
none of them decoded from the directory. -/
theorem infoIter_silent_on_directory_before_window :
    farDirectoryTail.length = headerLen ∧
    readEOCD farDirectoryTail = .ok
      { totalNumRecords := 1000, totalNumRecords64 := 0, cdirBytes64 := 98978,
        cdirStart64 := 1000 } ∧
    infoIterTrace farDirectoryTail 100000 = .ok (List.replicate 1000 CDirentry.zero, 0) ∧
    infoIter farDirectoryTail 100000 = .ok (List.replicate 1000 CDirentry.zero) := by
  have hi := infoIter_directory_before_window farDirectoryTail 100000
    { totalNumRecords := 1000, totalNumRecords64 := 0, cdirBytes64 := 98978,
      cdirStart64 := 1000 }
    readEOCD_farDirectoryTail (by norm_num) (by decide) (by decide) (by decide) (by decide)
  exact ⟨farDirectoryTail_length, readEOCD_farDirectoryTail, hi.1, hi.2⟩

set_option maxRecDepth 100000 in
/-- C2 (failing input): for the three entries of `scenarioArchive` (local
headers at 0, 45 and 90, archive length 305) the range `main` requests for
`b.txt` is bytes 45 to 134 and for `c.txt` bytes 90 to 394, because it hands
`nextPos` to `getRange` as the byte count; the ranges up to the next entry
and up to the archive end are 45 to 89 and 90 to 304. -/
theorem requested_range_uses_nextPos_as_count :
    infoIter (tailWindow scenarioArchive) 305 = .ok scenarioEntries ∧
    nextPos scenarioEntries 305 1 = 90 ∧ nextPos scenarioEntries 305 2 = 305 ∧
    requestedRange scenarioEntries 305 1 = (45, 134) ∧
    requestedRange scenarioEntries 305 2 = (90, 394) ∧
    requestedRange scenarioEntries 305 1 ≠ (45, 90 - 1) ∧
    requestedRange scenarioEntries 305 2 ≠ (90, 305 - 1) ∧
    extractEntry (fun first last => if first = 45 ∧ last = 89 then some [] else none)
      (fun _ => []) scenarioEntries 305 1 (scenarioEntries.getD 1 CDirentry.zero)
      = .error .httpStatus := by
  decide

set_option maxRecDepth 100000 in
/-- C8 (failing input): the extra field of `chainEntry` is a chain of an
extended-timestamp sub-record and a ZIP64 sub-record carrying the compressed
size 0x1122334455; `unpackCDirentry` returns the entry with the compressed
size still `0xFFFFFFFF`, the ZIP64 sub-record never having been examined. -/
theorem zip64_subrecord_after_another_is_ignored :
    (fixedAt chainEntry 0).CompressedSize = sentinel32 ∧
    (chainEntry.drop 53).take 21
      = [85, 84, 5, 0, 1, 128, 0, 146, 101] ++ [1, 0, 8, 0] ++ [85, 68, 51, 34, 17, 0, 0, 0] ∧
    payloadVal [85, 68, 51, 34, 17, 0, 0, 0] 0 = 0x1122334455 ∧
    (unpackCDirentry chainEntry 0).toOption.map (fun p => (p.1, p.2.CompressedSize))
      = some (74, 0xffffffff) := by
  decide

set_option maxRecDepth 100000 in
/-- C9 (counterexample): with the compression method of `c.txt` set to 12,
extraction of `c.txt` does not fail: the five stored bytes `abcde` are written
unchanged. -/
theorem method12_is_passed_through :
    ((infoIter (tailWindow method12Archive) 305).toOption.map
      (fun es => (es.getD 2 CDirentry.zero).CompressionMethod)) = some 12 ∧
    mainFrom (fakeRemote method12Archive) (fun _ => []) (tailWindow method12Archive) 305
      [99, 46, 116, 120, 116]
      = ([([99, 46, 116, 120, 116], [97, 98, 99, 100, 101])], .ok ()) := by
  decide

/-- C9 (amended): once the response body has been fetched and `CompressedSize`
bytes `data` read after the local header, extraction returns the file name
with `data` inflated as raw deflate when the compression method is 8 and with
`data` unchanged for every other method, 0 included; no method makes it fail. -/
theorem extraction_dispatch (fetch : Int → Int → Option (List Byte))
    (inflate : List Byte → List Byte) (entries : List CDirentry) (fileLen i : Nat)
    (entry : CDirentry) (body data : List Byte)
    (hfetch : getRange fetch (toInt64 entry.OffsetLocalHeader)
      (toInt64 (nextPos entries fileLen i)) = .ok body)
    (hread : readPayload body entry = .ok data) :
    extractEntry fetch inflate entries fileLen i entry
        = .ok (entry.FileName, decompress inflate entry.CompressionMethod data) ∧
      (entry.CompressionMethod = 8 →
        decompress inflate entry.CompressionMethod data = inflate data) ∧
      (entry.CompressionMethod ≠ 8 →
        decompress inflate entry.CompressionMethod data = data) := by
  refine ⟨?_, ?_, ?_⟩
  · unfold extractEntry
    rw [hfetch]
    simp only []
    rw [hread]
  · intro h
    simp [decompress, h]
  · intro h
    simp [decompress, h]

set_option maxRecDepth 100000 in
theorem extraction_dispatch_witness :
    extractEntry (fakeRemote scenarioArchive) (fun _ => [104, 105]) scenarioEntries 305 1
        (scenarioEntries.getD 1 CDirentry.zero)
      = .ok ([98, 46, 116, 120, 116], [104, 105]) ∧
    extractEntry (fakeRemote scenarioArchive) (fun _ => [104, 105]) scenarioEntries 305 2
        (scenarioEntries.getD 2 CDirentry.zero)
      = .ok ([99, 46, 116, 120, 116], [97, 98, 99, 100, 101]) :=
  ⟨(extraction_dispatch (fakeRemote scenarioArchive) (fun _ => [104, 105]) scenarioEntries 305 1
      (scenarioEntries.getD 1 CDirentry.zero)
      ((scenarioArchive.drop 45).take 90) [203, 72, 205, 201, 201, 87, 200, 64, 144, 0]
      (by decide) (by decide)).1,
   (extraction_dispatch (fakeRemote scenarioArchive) (fun _ => [104, 105]) scenarioEntries 305 2
      (scenarioEntries.getD 2 CDirentry.zero)
      ((scenarioArchive.drop 90).take 305) [97, 98, 99, 100, 101]
      (by decide) (by decide)).1⟩


set_option maxRecDepth 100000 in
/-- C1 (counterexample): `signatureInDataArchive` is an archive with one
stored member `s.bin` whose content is the four bytes `50 4B 06 06`;
`infoIter` takes them for a ZIP64 record, reports that it cannot find the
central directory, and the extraction path writes nothing, where the claim
asks for the four stored bytes. -/
theorem round_trip_fails_on_signature_in_data :
    buildArchive [signatureMember] [] = signatureInDataArchive ∧
    signatureMember.WellFormed ∧
    expectedOutput (fun _ => []) [signatureMember] [115, 46, 98, 105, 110]
      = [([115, 46, 98, 105, 110], [80, 75, 6, 6])] ∧
    (signatureInDataArchive.drop (0 + 30 + 5 + 0)).take 4 = [80, 75, 6, 6] ∧
    infoIter (tailWindow signatureInDataArchive) signatureInDataArchive.length
      = .error .cannotFindCentralDirectory ∧
    mainFrom (fakeRemote signatureInDataArchive) (fun _ => [])
        (tailWindow signatureInDataArchive) signatureInDataArchive.length
        [115, 46, 98, 105, 110]
      = ([], .ok ()) := by
  decide

/-- C1 (amended): for an archive without ZIP64 records built member by member
(local sections in central-directory order, central directory, standard
record, comment; every field in range, no 32-bit field at the escape value,
archive shorter than `0xFFFFFFFF` bytes) whose central directory starts inside
the last 65536 bytes and whose tail window holds no ZIP64 signature and no
standard signature after the record's own, the extraction path against the
fake remote object holding the archive works: `infoIter` on the tail window
returns the entries of the central directory in order; extraction of any
entry returns its name with the `compressedSize` bytes that follow its local
header (30 bytes, name, local extra field), inflated for method 8 and
unchanged for every other method; and `main` writes exactly that for every
member of the requested name. -/
theorem round_trip_standard_archive (ms : List Member) (comment : List Byte)
    (inflate : List Byte → List Byte)
    (hms : ∀ m ∈ ms, m.WellFormed) (hcount : ms.length < 65536)
    (hL : (buildArchive ms comment).length < 4294967295)
    (hwin : (buildArchive ms comment).length ≤ (localSection ms).length + headerLen)
    (h64 : ∀ j, j < (tailWindow (buildArchive ms comment)).length →
      ((tailWindow (buildArchive ms comment)).drop j).take 4 ≠ magicEOCD64)
    (h32 : ∀ j, j < (tailWindow (buildArchive ms comment)).length →
      eocdIndexInTail ms comment < j →
      ((tailWindow (buildArchive ms comment)).drop j).take 4 ≠ magicEOCD) :
    infoIter (tailWindow (buildArchive ms comment)) (buildArchive ms comment).length
      = .ok (entriesOf ms) ∧
    (∀ i m off, (layout ms 0)[i]? = some (m, off) →
      (entriesOf ms)[i]? = some (entryOf m off) ∧
      ((buildArchive ms comment).drop (off + 30 + m.name.length + m.localExtra.length)).take
        (entryOf m off).CompressedSize = m.payload ∧
      extractEntry (fakeRemote (buildArchive ms comment)) inflate (entriesOf ms)
          (buildArchive ms comment).length i (entryOf m off)
        = .ok (m.name, decompress inflate m.method m.payload)) ∧
    (∀ toExtract, mainFrom (fakeRemote (buildArchive ms comment)) inflate
        (tailWindow (buildArchive ms comment)) (buildArchive ms comment).length toExtract
      = (expectedOutput inflate ms toExtract, .ok ())) := by
  have hinfo := infoIter_buildArchive ms comment hms hcount hL hwin h64 h32
  refine ⟨hinfo, ?_, ?_⟩
  · intro i m off hget
    refine ⟨?_, ?_, extractEntry_buildArchive ms comment inflate i m off hms hL hget⟩
    · unfold entriesOf
      rw [List.getElem?_map, hget]
      rfl
    · have hmem : (m, off) ∈ layout ms 0 := List.getElem?_mem hget
      obtain ⟨hm1, _, hm3⟩ := layout_mem ms 0 _ hmem
      obtain ⟨_, ⟨rest, hrest⟩, _⟩ := layout_get ms 0 i m off hget
      simp only [Nat.sub_zero, zero_add] at hrest hm3
      have h28 := (hms m hm1).1
      have hdrop : (buildArchive ms comment).drop off
          = (m.localFixed ++ (encodeLE 2 m.localExtra.length ++ (m.name ++ m.localExtra)))
            ++ (m.payload ++ (m.trailer ++ (rest ++ (centralSection (layout ms 0) ++
              eocdRecord ms.length (centralSection (layout ms 0)).length
                (localSection ms).length comment)))) := by
        unfold buildArchive
        rw [List.drop_append_of_le_length (by omega), hrest]
        unfold localRecord
        simp only [List.append_assoc]
      have hd2 := drop_add_of_drop_eq _ _ _ _ hdrop
      simp only [List.length_append, encodeLE_length, h28] at hd2
      have e : off + 30 + m.name.length + m.localExtra.length
          = off + (28 + (2 + (m.name.length + m.localExtra.length))) := by omega
      rw [e, hd2]
      simp only [entryOf, List.take_left]
  · intro toExtract
    have hloop := mainLoop_buildArchive ms comment inflate toExtract hms hL (layout ms 0) 0 rfl
    rw [mainFrom_of_infoIter _ _ _ _ _ _ hinfo]
    unfold expectedOutput
    rw [← layout_filter_map ms 0 (fun m => decide (m.name = toExtract))
      (fun m => (m.name, decompress inflate m.method m.payload))]
    exact hloop

set_option maxRecDepth 100000 in
theorem round_trip_standard_archive_witness :
    buildArchive scenarioMembers [] = scenarioArchive ∧
    mainFrom (fakeRemote (buildArchive scenarioMembers []))
        (fun _ => [104, 101, 108, 108, 111, 32, 104, 101, 108, 108, 111, 32, 104, 101, 108,
          108, 111])
        (tailWindow (buildArchive scenarioMembers [])) (buildArchive scenarioMembers []).length
        [98, 46, 116, 120, 116]
      = (expectedOutput
          (fun _ => [104, 101, 108, 108, 111, 32, 104, 101, 108, 108, 111, 32, 104, 101, 108,
            108, 111])
          scenarioMembers [98, 46, 116, 120, 116], .ok ()) ∧
    expectedOutput
        (fun _ => [104, 101, 108, 108, 111, 32, 104, 101, 108, 108, 111, 32, 104, 101, 108,
          108, 111])
        scenarioMembers [98, 46, 116, 120, 116]
      = [([98, 46, 116, 120, 116],
          [104, 101, 108, 108, 111, 32, 104, 101, 108, 108, 111, 32, 104, 101, 108, 108, 111])] :=
  ⟨by decide,
   (round_trip_standard_archive scenarioMembers []
      (fun _ => [104, 101, 108, 108, 111, 32, 104, 101, 108, 108, 111, 32, 104, 101, 108,
        108, 111])
      (by decide) (by decide) (by decide) (by decide) (by decide) (by decide)).2.2
      [98, 46, 116, 120, 116],
   by decide⟩

end GoUnzipHttp
